import Mathlib

/-!
# AMFS core engine — shallow embedding and verification

This file embeds the core on-disk engine of the AMFS filesystem
(crate `amfs`) in Lean 4 and settles a list of claims about it.

Conventions of the embedding:
* Rust machine integers (`u8/u32/u64/u128/usize`) are `Nat`, with `% 2^w`
  written explicitly at the places where wrap-around can actually occur.
* A fallible Rust call returns `MRes α`: `ok`, `err` (an `AMResult` error),
  or `crash` (a Rust panic: failed `assert!`, out-of-bounds index,
  arithmetic overflow, `todo!()` / `unimplemented!()`).
* `&mut self` methods are state-passing: they return their result paired
  with the successor state, and the state also persists through `err`.
* `BTreeMap<u64, Extent>` is an association list sorted by key; the
  embedded operations mirror the map operations the source uses
  (ordered iteration, `insert`, `remove`, `get_mut`, `range`).
-/

namespace Amfs

/-- Error kinds of `amos_std::error` used by the embedded code
(`AMErrorFS` plus `AMError::TODO`). -/
inductive AMError where
  | Signature
  | Checksum
  | DiskID
  | UnknownDevId
  | NoSuperblock
  | NoRootgroup
  | NoAllocator
  | NoDiskgroup
  | NoObject
  | NullPointer
  | AllocFailed
  | Poison
  | todo
deriving DecidableEq, Repr

/-- Outcome of an embedded Rust call: normal return, `Err` return, or panic. -/
inductive MRes (α : Type) where
  | ok : α → MRes α
  | err : AMError → MRes α
  | crash : MRes α
deriving DecidableEq, Repr

/-- CRC32 single-bit step (reflected IEEE polynomial `0xEDB88320`), the bit
semantics of `crc32fast::Hasher`. Values stay below `2^32`. -/
def crcBit (c : Nat) : Nat :=
  if c % 2 = 1 then (c / 2) ^^^ 0xEDB88320 else c / 2

/-- CRC32 step for one byte. -/
def crcByte (c b : Nat) : Nat :=
  crcBit (crcBit (crcBit (crcBit (crcBit (crcBit (crcBit (crcBit (c ^^^ (b % 256)))))))))

/-- CRC32 of a byte sequence (`Hasher::new`, `update`, `finalize`). -/
def crc32 (data : List Nat) : Nat :=
  (data.foldl crcByte 0xFFFFFFFF) ^^^ 0xFFFFFFFF

/-- The filesystem's block size (lib.rs): 4096 bytes. -/
def BLOCK_SIZE : Nat := 4096

/-- `amosAMFS`, the 8 signature bytes at the start of every superblock. -/
def SIGNATURE : List Nat := [0x61, 0x6d, 0x6f, 0x73, 0x41, 0x4d, 0x46, 0x53]

/-- `AMPointer` (ondisk/pointer.rs): `location:u64, checksum:u32, device:u8,
geometry:u8, len:u8, padding:u8`. Wrapped unchanged by `AMPointerLocal` and
`AMPointerGlobal`, so the embedding uses one structure for all three. -/
structure AMPointer where
  location : Nat
  checksum : Nat
  device : Nat
  geometry : Nat
  len : Nat
  padding : Nat
deriving DecidableEq, Repr

/-- `AMPointer::new(addr, len, geo, dev)`: checksum 0, padding `0xFF`. -/
def AMPointer.new (addr len geo dev : Nat) : AMPointer :=
  { location := addr, checksum := 0, device := dev, geometry := geo,
    len := len, padding := 0xFF }

/-- `AMPointer::null()`: all zero except `geometry = 0x7F`; `padding = 0`. -/
def AMPointer.null : AMPointer :=
  { location := 0, checksum := 0, device := 0, geometry := 0x7F,
    len := 0, padding := 0 }

/-- `AMPointer::is_null`: the pointer is NULL iff `padding == 0`. -/
def AMPointer.is_null (p : AMPointer) : Bool := p.padding == 0

/-- `AMPointerLocal::new(addr)` (pointer.rs:270): `AMPointer::new(addr, 0, 1, 0)`
— note the length argument `0`. -/
def AMPointerLocal.new (addr : Nat) : AMPointer := AMPointer.new addr 0 1 0

/-- `AMPointerLocal::set_loc` (pointer.rs:306): sets `padding = 0xFF` and the
location; every other field (including `len`) is left as it was. -/
def AMPointerLocal.set_loc (p : AMPointer) (loc : Nat) : AMPointer :=
  { p with padding := 0xFF, location := loc }

/-- `Disk::get_header_locs` (disk/mod.rs:42): four local pointers built from
`AMPointerLocal::null()` by `set_loc`, at blocks `{0, 1, size-2, size-1}`. -/
def Disk.get_header_locs (size : Nat) : List AMPointer :=
  [AMPointerLocal.set_loc AMPointer.null 0,
   AMPointerLocal.set_loc AMPointer.null 1,
   AMPointerLocal.set_loc AMPointer.null (size - 2),
   AMPointerLocal.set_loc AMPointer.null (size - 1)]

/-- `AMPointer::validate` (pointer.rs:388), the inner byte-level check:
if the global checksum kill-switch is off, always `true`; otherwise compare
the CRC32 of the target bytes with the pointer's checksum field. -/
def AMPointer.validate_bytes (p : AMPointer) (checksums_enabled : Bool)
    (target : List Nat) : Bool :=
  if !checksums_enabled then true
  else crc32 target == p.checksum

/-- `AMPointerGlobal::validate` (pointer.rs:77): `Ok(false)` on a NULL pointer
before anything else; then `assert_eq!(len, 1)`; then one whole-block read and
the inner CRC check. The second component is the list of block locations the
call read from disk (empty = no disk I/O performed). -/
def AMPointerGlobal.validate (p : AMPointer) (checksums_enabled : Bool)
    (disk : Nat → List Nat) : MRes Bool × List Nat :=
  if p.is_null then (.ok false, [])
  else if p.len ≠ 1 then (.crash, [])
  else (.ok (AMPointer.validate_bytes p checksums_enabled (disk p.location)),
        [p.location])

/-- `AMPointerGlobal::update` (pointer.rs:88): `assert_eq!(len, 1)` (no NULL
check), then one whole-block read and recompute the checksum from it. The
second component lists the block locations read. -/
def AMPointerGlobal.update (p : AMPointer) (disk : Nat → List Nat) :
    MRes AMPointer × List Nat :=
  if p.len ≠ 1 then (.crash, [])
  else (.ok { p with checksum := crc32 (disk p.location) }, [p.location])

/-! ## Allocator (ondisk/allocator.rs)

`AllocatorObj` keeps the per-disk extent map: a `BTreeMap<u64, Extent>`
keyed by extent start, embedded as an association list in key order. -/

/-- One run of blocks: its length and whether it is in use. -/
structure Extent where
  size : Nat
  used : Bool
deriving DecidableEq, Repr

/-- `AllocatorObj` (allocator.rs:124): total size and the extent map. -/
structure AllocatorObj where
  size : Nat
  extents : List (Nat × Extent)
deriving DecidableEq, Repr

/-- `BTreeMap::insert`: sorted insert, replacing an existing key. -/
def btInsert (k : Nat) (v : Extent) : List (Nat × Extent) → List (Nat × Extent)
  | [] => [(k, v)]
  | (k₁, v₁) :: t =>
    if k < k₁ then (k, v) :: (k₁, v₁) :: t
    else if k = k₁ then (k, v) :: t
    else (k₁, v₁) :: btInsert k v t

/-- `BTreeMap::remove`. -/
def btRemove (k : Nat) : List (Nat × Extent) → List (Nat × Extent)
  | [] => []
  | (k₁, v₁) :: t => if k = k₁ then t else (k₁, v₁) :: btRemove k t

/-- `BTreeMap::get`. -/
def btGet (k : Nat) : List (Nat × Extent) → Option Extent
  | [] => none
  | (k₁, v₁) :: t => if k = k₁ then some v₁ else btGet k t

/-- Assignment through `BTreeMap::get_mut`: overwrite the value at `k`
when the key is present. -/
def btSet (k : Nat) (v : Extent) : List (Nat × Extent) → List (Nat × Extent)
  | [] => []
  | (k₁, v₁) :: t => if k = k₁ then (k₁, v) :: t else (k₁, v₁) :: btSet k v t

/-- `ex.used = true` through `BTreeMap::get_mut`. -/
def btSetUsed (k : Nat) : List (Nat × Extent) → List (Nat × Extent)
  | [] => []
  | (k₁, e₁) :: t =>
    if k = k₁ then (k₁, { e₁ with used := true }) :: t else (k₁, e₁) :: btSetUsed k t

/-- `ex.size += d` through `BTreeMap::get_mut`. -/
def btAddSize (k d : Nat) : List (Nat × Extent) → List (Nat × Extent)
  | [] => []
  | (k₁, e₁) :: t =>
    if k = k₁ then (k₁, { e₁ with size := e₁.size + d }) :: t
    else (k₁, e₁) :: btAddSize k d t

/-- `range(..k).next_back()`: the greatest entry with key strictly below `k`. -/
def btPred (k : Nat) (l : List (Nat × Extent)) : Option (Nat × Extent) :=
  (l.filter (fun p => decide (p.1 < k))).getLast?

/-- `range(k..).nth(1)`: the second entry with key at least `k`. -/
def btSuccAfter (k : Nat) (l : List (Nat × Extent)) : Option (Nat × Extent) :=
  ((l.filter (fun p => decide (k ≤ p.1))).drop 1).head?

/-- `AllocatorObj::new` (allocator.rs:137): one free extent covering all. -/
def AllocatorObj.new (size : Nat) : AllocatorObj :=
  { size := size, extents := [(0, ⟨size, false⟩)] }

/-- Total free size of an extent list (`AllocatorObj::free_space`). -/
def freeSpaceL : List (Nat × Extent) → Nat
  | [] => 0
  | (_, e) :: t => (if e.used then 0 else e.size) + freeSpaceL t

/-- `AllocatorObj::free_space`. -/
def AllocatorObj.free_space (s : AllocatorObj) : Nat := freeSpaceL s.extents

/-- First pass of `AllocatorObj::alloc`: scan in key order for an unused
extent of exactly the requested size. -/
def findExact (size : Nat) : List (Nat × Extent) → Option Nat
  | [] => none
  | (k, e) :: t => if !e.used && e.size == size then some k else findExact size t

/-- Second pass: the first unused extent strictly larger than the request
(start and size). -/
def findLarger (size : Nat) : List (Nat × Extent) → Option (Nat × Nat)
  | [] => none
  | (k, e) :: t =>
    if !e.used && size < e.size then some (k, e.size) else findLarger size t

/-- `AllocatorObj::alloc` (allocator.rs:173): `assert!(size > 0)` and
`assert_le!(size, self.size)` (both panic on failure); then an exact-size
unused extent wins; else the first strictly larger unused extent is split,
taking the head; else `AllocFailed`. -/
def AllocatorObj.alloc (s : AllocatorObj) (size : Nat) : MRes Nat × AllocatorObj :=
  if size = 0 then (.crash, s)
  else if s.size < size then (.crash, s)
  else match findExact size s.extents with
    | some a => (.ok a, { s with extents := btSetUsed a s.extents })
    | none =>
      match findLarger size s.extents with
      | some (a, se) =>
        let ext₁ := btSet a ⟨size, true⟩ s.extents
        let ext₂ := btInsert (a + size) ⟨se - size, false⟩ ext₁
        (.ok a, { s with extents := ext₂ })
      | none => (.err .AllocFailed, s)

/-- The merge decision of `free`: a neighbouring entry merges iff unused. -/
def mergeCandidate : Option (Nat × Extent) → Option (Nat × Extent)
  | some (k, e) => if !e.used then some (k, e) else none
  | none => none

/-- `AllocatorObj::free` (allocator.rs:231): look the extent up
(`TODO` error when absent), `assert!(ex.used)`, clear the flag, then merge
the next neighbour (`range(addr..).nth(1)`) and the previous neighbour
(`range(..addr).next_back()`) when they are unused. -/
def AllocatorObj.free (s : AllocatorObj) (addr : Nat) : MRes Unit × AllocatorObj :=
  match btGet addr s.extents with
  | none => (.err .todo, s)
  | some ex =>
    if !ex.used then (.crash, s)
    else
      let ext₁ := btSet addr { ex with used := false } s.extents
      let mergeP := mergeCandidate (btPred addr ext₁)
      let mergeN := mergeCandidate (btSuccAfter addr ext₁)
      let step₂ : List (Nat × Extent) × Nat :=
        match mergeN with
        | some (nk, ne) => (btRemove nk (btAddSize addr ne.size ext₁), ex.size + ne.size)
        | none => (ext₁, ex.size)
      let ext₃ : List (Nat × Extent) :=
        match mergeP with
        | some (pk, _) => btRemove addr (btAddSize pk step₂.2 step₂.1)
        | none => step₂.1
      (.ok (), { s with extents := ext₃ })

/-- Rollback loop of `AllocatorObj::alloc_many`: free every block already
allocated, panicking if any `free` fails. -/
def freeAllRes (s : AllocatorObj) : List Nat → MRes Unit × AllocatorObj
  | [] => (.ok (), s)
  | a :: t =>
    match s.free a with
    | (.ok _, s₁) => freeAllRes s₁ t
    | (_, s₁) => (.crash, s₁)

/-- Loop body of `AllocatorObj::alloc_many` (allocator.rs:215) with the
blocks allocated so far in `res`. -/
def allocManyGo (s : AllocatorObj) (count : Nat) (res : List Nat) :
    MRes (List Nat) × AllocatorObj :=
  match count with
  | 0 => (.ok res, s)
  | count + 1 =>
    match s.alloc 1 with
    | (.ok v, s₁) => allocManyGo s₁ count (res ++ [v])
    | (.err _, s₁) =>
      match freeAllRes s₁ res with
      | (.ok _, s₂) => (.err .AllocFailed, s₂)
      | (_, s₂) => (.crash, s₂)
    | (.crash, s₁) => (.crash, s₁)

/-- `AllocatorObj::alloc_many`: `count` single-block allocations; on any
failure all already-allocated blocks are freed and `AllocFailed` returned. -/
def AllocatorObj.alloc_many (s : AllocatorObj) (count : Nat) :
    MRes (List Nat) × AllocatorObj :=
  allocManyGo s count []

/-! ### Allocator invariants

Reachable allocator states satisfy: the extents tile `[0, size)`
contiguously with positive sizes (`tileB`), and no two adjacent extents are
both free (`naf`, the merge rule). -/

/-- The extent list tiles `[pos, total)`: keys are consecutive starts and
sizes are positive. -/
def tileB (pos total : Nat) : List (Nat × Extent) → Bool
  | [] => pos == total
  | (k, e) :: t => k == pos && decide (0 < e.size) && tileB (pos + e.size) total t

/-- Well-formedness of an allocator: its extents tile `[0, size)`. -/
def AllocatorObj.wf (s : AllocatorObj) : Bool := tileB 0 s.size s.extents

/-- No two adjacent extents are both free. -/
def naf (l : List (Nat × Extent)) : Prop :=
  List.Chain' (fun a b => a.2.used = true ∨ b.2.used = true) l

instance nafDecidable (l : List (Nat × Extent)) : Decidable (naf l) :=
  inferInstanceAs
    (Decidable (List.Chain'
      (fun (a b : Nat × Extent) => a.2.used = true ∨ b.2.used = true) l))

/-- Executable check for `naf`. -/
def nafB : List (Nat × Extent) → Bool
  | [] => true
  | [_] => true
  | a :: b :: t => (a.2.used || b.2.used) && nafB (b :: t)

/-- Whether block `b` lies inside a used extent. -/
def usedAtL (b : Nat) : List (Nat × Extent) → Bool
  | [] => false
  | (k, e) :: t => if k ≤ b && b < k + e.size then e.used else usedAtL b t

/-- `AllocatorObj.usedAt s b`: block `b` is inside a used extent of `s`. -/
def AllocatorObj.usedAt (s : AllocatorObj) (b : Nat) : Bool := usedAtL b s.extents

/-- The size of the used extent starting exactly at `x`, if any. -/
def usedExtL (x : Nat) : List (Nat × Extent) → Option Nat
  | [] => none
  | (k, e) :: t =>
    if k = x then (if e.used then some e.size else none) else usedExtL x t

/-! ## Commit (fs.rs:360) and superblock rotation -/

/-- `FSGroup` (fsgroup.rs:17): the on-disk root group record (pointer and
integer fields; the padding is constant). -/
structure FSGroup where
  alloc : AMPointer
  free_queue : AMPointer
  journal : AMPointer
  objects : AMPointer
  directory : Nat
  txid : Nat
deriving DecidableEq, Repr

/-- The root-group record that `AMFS::commit` (fs.rs:360) writes: the
previous root group with `objects` set to the current object-set root
(fs.rs:365) and `free_queue`/`alloc` rewritten by `write_free_queue` and
`write_allocators` (fsgroup.rs:154, fsgroup.rs:179). No other field —
in particular not `txid` — is assigned anywhere in the commit path. -/
def commitRootGroup (prev : FSGroup) (objectsPtr freeQueuePtr allocPtr : AMPointer) :
    FSGroup :=
  { prev with objects := objectsPtr, free_queue := freeQueuePtr, alloc := allocPtr }

/-- `Superblock` (superblock.rs:20), the root-rotation fields:
`latest_root : u8` and the 128-entry `rootnodes` array. -/
structure Superblock where
  latest_root : Nat
  rootnodes : List AMPointer
deriving DecidableEq, Repr

/-- The per-superblock commit step (fs.rs:375): `sb.latest_root += 1;`
(u8 addition, panics on overflow past 255) then
`sb.rootnodes[usize::from(sb.latest_root)] = root_ptr;` — a panic if the
incremented index reaches the array length. There is no reduction mod 128. -/
def commitSuperblockStep (sb : Superblock) (root_ptr : AMPointer) :
    MRes Superblock :=
  if sb.latest_root + 1 ≥ 256 then .crash
  else if sb.latest_root + 1 < sb.rootnodes.length then
    .ok { latest_root := sb.latest_root + 1,
          rootnodes := sb.rootnodes.set (sb.latest_root + 1) root_ptr }
  else .crash

/-- `DiskGroup::alloc_blocks` (diskgroup.rs:72, `Single` flavor): allocate
`n` blocks from the disk's allocator and wrap the start in a one-block
global pointer `AMPointerGlobal::new(ptr, 1, 0, 0)`. -/
def DiskGroup.alloc_blocks (alloc : AllocatorObj) (n : Nat) :
    MRes AMPointer × AllocatorObj :=
  match alloc.alloc n with
  | (.ok ptr, a₁) => (.ok (AMPointer.new ptr 1 0 0), a₁)
  | (.err e, a₁) => (.err e, a₁)
  | (.crash, a₁) => (.crash, a₁)

/-! ## Objects (ondisk/object.rs) and the copy-on-write write path -/

/-- `Fragment` (object.rs:443): one run of object bytes. -/
structure Fragment where
  size : Nat
  offset : Nat
  pointer : AMPointer
deriving DecidableEq, Repr

/-- `Object` (object.rs:297): a file backed by a fragment list. -/
structure Object where
  frags : List Fragment
deriving DecidableEq, Repr

/-- `Object::size` (object.rs:431): the sum of the fragment sizes. -/
def Object.size (o : Object) : Nat := (o.frags.map Fragment.size).sum

/-- Loop of `DiskGroup::alloc_bytes` (diskgroup.rs:83, `Single` flavor): one
block per iteration, fragment size `min(size_rem, BLOCK_SIZE)`, stop when
`size_rem ≤ BLOCK_SIZE`. The loop runs `size_rem / BLOCK_SIZE + 1` times, so
that much fuel makes the fuel guard unreachable. -/
def allocBytesGo : Nat → AllocatorObj → Nat → MRes (List Fragment) × AllocatorObj
  | 0, a, _ => (.crash, a)
  | fuel + 1, a, size_rem =>
    match a.alloc 1 with
    | (.ok ptr, a₁) =>
      let size_frag := if size_rem > BLOCK_SIZE then BLOCK_SIZE else size_rem
      let frag : Fragment := ⟨size_frag, 0, AMPointer.new ptr 1 0 0⟩
      if size_rem ≤ BLOCK_SIZE then (.ok [frag], a₁)
      else
        match allocBytesGo fuel a₁ (size_rem - BLOCK_SIZE) with
        | (.ok rest, a₂) => (.ok (frag :: rest), a₂)
        | (.err e, a₂) => (.err e, a₂)
        | (.crash, a₂) => (.crash, a₂)
    | (.err e, a₁) => (.err e, a₁)
    | (.crash, a₁) => (.crash, a₁)

/-- `DiskGroup::alloc_bytes` (diskgroup.rs:83). -/
def DiskGroup.alloc_bytes (a : AllocatorObj) (n : Nat) :
    MRes (List Fragment) × AllocatorObj :=
  allocBytesGo (n / BLOCK_SIZE + 1) a n

/-- The shrink loop of `Object::truncate` (object.rs:405), recursing over the
reversed fragment list (`frags.last_mut` / `frags.pop`): drop whole trailing
fragments while that leaves the object too big, else set the last fragment's
size to `cur_size - size` (object.rs:418). -/
def shrinkGo (size : Nat) : Nat → List Fragment → List Fragment
  | _, [] => []
  | cur, lf :: rest =>
    if cur - lf.size > size then shrinkGo size (cur - lf.size) rest
    else if cur - lf.size = size then rest
    else { lf with size := cur - size } :: rest

/-- `Object::truncate` (object.rs:388): empty fragment list allows only size
0 (`todo!()` otherwise); shrink via the pop/shrink loop; grow by appending
`alloc_bytes(size - self.size())`. (`handle.alloc_bytes` additionally
refreshes each fresh pointer's checksum, which no fragment size depends
on.) -/
def Object.truncate (o : Object) (alloc : AllocatorObj) (size : Nat) :
    MRes Object × AllocatorObj :=
  if o.frags.isEmpty then
    if size = 0 then (.ok o, alloc) else (.crash, alloc)
  else if size < o.size then
    (.ok ⟨(shrinkGo size o.size o.frags.reverse).reverse⟩, alloc)
  else
    match DiskGroup.alloc_bytes alloc (size - o.size) with
    | (.ok new_frags, a₁) => (.ok ⟨o.frags ++ new_frags⟩, a₁)
    | (.err e, a₁) => (.err e, a₁)
    | (.crash, a₁) => (.crash, a₁)

/-- The mutable filesystem state touched by the object write path (fs.rs):
the disk 0 allocator, the free queue of the current transaction, and the
device contents, block index to byte list. (The journal is write-only in
this path and is omitted.) -/
structure FS where
  alloc : AllocatorObj
  freeQueue : List AMPointer
  disk : Nat → List Nat

/-- Overwrite one device block. -/
def setBlock (disk : Nat → List Nat) (i : Nat) (b : List Nat) :
    Nat → List Nat :=
  fun j => if j = i then b else disk j

/-- `buf[start_offs..end_offs].clone_from_slice(data)` on a block buffer. -/
def spliceBytes (blk : List Nat) (offs : Nat) (data : List Nat) : List Nat :=
  blk.take offs ++ data ++ blk.drop (offs + data.length)

/-- `AMPointerGlobal::write` (pointer.rs:199, `Single` flavor): block-aligned
whole-block writes go to device block `loc + start / BLOCK_SIZE`; a write
inside one block reads that block, splices, and writes it whole; a write
crossing block boundaries is `todo!()`. No bound against `len` is checked. -/
def AMPointerGlobal.write_bytes (p : AMPointer) (start size : Nat)
    (data : List Nat) (disk : Nat → List Nat) : MRes (Nat → List Nat) :=
  if start % BLOCK_SIZE = 0 ∧ size = BLOCK_SIZE then
    .ok (setBlock disk (p.location + start / BLOCK_SIZE) data)
  else if start / BLOCK_SIZE = (start + size) / BLOCK_SIZE then
    .ok (setBlock disk (p.location + start / BLOCK_SIZE)
      (spliceBytes (disk (p.location + start / BLOCK_SIZE))
        (start % BLOCK_SIZE) data))
  else .crash

/-- `AMPointerGlobal::read_vec` (pointer.rs:186): `len * BLOCK_SIZE` bytes
from the pointer: the whole block for `len = 1`, the empty slice for
`len = 0`, and `todo!()` (multi-block read) otherwise. -/
def AMPointerGlobal.read_vec (p : AMPointer) (disk : Nat → List Nat) :
    MRes (List Nat) :=
  if p.len = 1 then .ok (disk p.location)
  else if p.len = 0 then .ok []
  else .crash

/-- `AMFS::alloc_blocks` (fs.rs:231): allocate from diskgroup 0 and refresh
the new pointer's checksum. -/
def FS.alloc_blocks (fs : FS) (n : Nat) : MRes AMPointer × FS :=
  match DiskGroup.alloc_blocks fs.alloc n with
  | (.ok p, a₁) =>
    match AMPointerGlobal.update p fs.disk with
    | (.ok p₁, _) => (.ok p₁, { fs with alloc := a₁ })
    | (.err e, _) => (.err e, { fs with alloc := a₁ })
    | (.crash, _) => (.crash, { fs with alloc := a₁ })
  | (.err e, a₁) => (.err e, { fs with alloc := a₁ })
  | (.crash, a₁) => (.crash, { fs with alloc := a₁ })

/-- `AMFS::free` (fs.rs:277): push the pointer onto the current
transaction's free queue. The allocator is not touched. -/
def FS.free (fs : FS) (ptr : AMPointer) : FS :=
  { fs with freeQueue := fs.freeQueue ++ [ptr] }

/-- `AMFS::realloc` (fs.rs:261): allocate `ptr.length()` fresh blocks
(`length()` asserts the pointer is non-NULL), copy the old contents onto
them, enqueue the old pointer on the free queue, return the new pointer. -/
def FS.realloc (fs : FS) (ptr : AMPointer) : MRes AMPointer × FS :=
  if ptr.is_null then (.crash, fs)
  else
    match FS.alloc_blocks fs ptr.len with
    | (.ok newp, fs₁) =>
      match AMPointerGlobal.read_vec ptr fs₁.disk with
      | .ok contents =>
        match AMPointerGlobal.write_bytes newp 0 contents.length contents
            fs₁.disk with
        | .ok disk₁ => (.ok newp, FS.free { fs₁ with disk := disk₁ } ptr)
        | .err e => (.err e, fs₁)
        | .crash => (.crash, fs₁)
      | .err e => (.err e, fs₁)
      | .crash => (.crash, fs₁)
    | (.err e, fs₁) => (.err e, fs₁)
    | (.crash, fs₁) => (.crash, fs₁)

/-- The fragment loop of `Object::write` (object.rs:369). For each fragment
with `start < pos + f.size`: `start - pos` (u64, panics if `pos > start`),
`todo!()` if the slice overruns the fragment, else reallocate the
fragment's pointer (COW), write the slice at byte offset `slice_start`
into the new pointer, and refresh its checksum. `pos` advances by `f.size`
for every fragment, hit or not. -/
def objWriteGo (start : Nat) (data : List Nat) :
    List Fragment → Nat → Nat → FS → MRes Nat × FS × List Fragment
  | [], _, resN, fs => (.ok resN, fs, [])
  | f :: rest, pos, resN, fs =>
    if start < pos + f.size then
      if start < pos then (.crash, fs, f :: rest)
      else if start - pos + data.length > f.size then (.crash, fs, f :: rest)
      else
          match FS.realloc fs f.pointer with
          | (.ok newp, fs₁) =>
            match AMPointerGlobal.write_bytes newp (start - pos) data.length
                data fs₁.disk with
            | .ok disk₁ =>
              match AMPointerGlobal.update newp disk₁ with
              | (.ok newp₂, _) =>
                match objWriteGo start data rest (pos + f.size)
                    (resN + data.length) { fs₁ with disk := disk₁ } with
                | (r, fs₃, rest₃) =>
                  (r, fs₃, { f with pointer := newp₂ } :: rest₃)
              | (.err e, _) =>
                (.err e, { fs₁ with disk := disk₁ },
                  { f with pointer := newp } :: rest)
              | (.crash, _) =>
                (.crash, { fs₁ with disk := disk₁ },
                  { f with pointer := newp } :: rest)
            | .err e => (.err e, fs₁, { f with pointer := newp } :: rest)
            | .crash => (.crash, fs₁, { f with pointer := newp } :: rest)
          | (.err e, fs₁) => (.err e, fs₁, f :: rest)
          | (.crash, fs₁) => (.crash, fs₁, f :: rest)
    else
      match objWriteGo start data rest (pos + f.size) resN fs with
      | (r, fs₃, rest₃) => (r, fs₃, f :: rest₃)

/-- `Object::write` (object.rs:360). -/
def Object.write (o : Object) (fs : FS) (start : Nat) (data : List Nat) :
    MRes Nat × FS × Object :=
  match objWriteGo start data o.frags 0 0 fs with
  | (r, fs₁, frags₁) => (r, fs₁, ⟨frags₁⟩)

/-- The old pointers of the fragments the `Object::write` loop rewrites:
the fragments `f` satisfying the loop's hit test `start < pos + f.size`
(object.rs:370), in loop order, taken before reallocation replaces them. -/
def objWriteOldPtrs (start : Nat) : List Fragment → Nat → List AMPointer
  | [], _ => []
  | f :: rest, pos =>
    (if start < pos + f.size then [f.pointer] else [])
      ++ objWriteOldPtrs start rest (pos + f.size)

/-! ## Linked list of blocks (ondisk/linkedlist.rs)

The chain block is modelled structurally: header (`next` pointer and entry
`count`, linkedlist.rs:10) plus the entry payload, standing for the 4096-byte
buffer whose first 32 bytes hold the header. The pointer checksum over a
block is kept as an abstract function `chkf` of the block's content (the
code uses CRC32 of the block's bytes, one particular such function); reads
are modelled with the checksum kill-switch in its default enabled state. -/

/-- One chain block of `LinkedListGlobal` (linkedlist.rs:10): the header's
`next` and `count` fields plus the entries stored behind the header. -/
structure LLGBlock (T : Type) where
  next : AMPointer
  count : Nat
  entries : List T

/-- Overwrite index `i` of a total map. -/
def setD {α : Type} (d : Nat → α) (i : Nat) (b : α) : Nat → α :=
  fun j => if j = i then b else d j

/-- Replace a chain block's `next` header field, keeping its payload. -/
def withNext {T : Type} (blk : LLGBlock T) (n : AMPointer) : LLGBlock T :=
  { blk with next := n }

/-- `ptr.update(..)`: the pointer with its checksum field replaced. -/
def withChecksum (p : AMPointer) (c : Nat) : AMPointer :=
  { p with checksum := c }

/-- `(0..blocks).map(|_| dg.alloc_blocks(1)).collect()` (linkedlist.rs:75):
`n` single-block allocations, failing fast. -/
def allocPtrs : Nat → AllocatorObj → MRes (List AMPointer) × AllocatorObj
  | 0, a => (.ok [], a)
  | n + 1, a =>
    match DiskGroup.alloc_blocks a 1 with
    | (.ok p, a₁) =>
      match allocPtrs n a₁ with
      | (.ok ps, a₂) => (.ok (p :: ps), a₂)
      | (.err e, a₂) => (.err e, a₂)
      | (.crash, a₂) => (.crash, a₂)
    | (.err e, a₁) => (.err e, a₁)
    | (.crash, a₁) => (.crash, a₁)

/-- First pass of `LinkedListGlobal::write` (linkedlist.rs:89): block `i`
receives header `{next := blockptrs[i+1], count}` — where `blockptrs` has a
null pointer appended, so the last block's `next` is null — and the next
`ent_each = k` entries; `count` is the number of entries actually taken. -/
def pass1 {T : Type} (k : Nat) :
    List AMPointer → List T → (Nat → LLGBlock T) → Nat → LLGBlock T
  | [], _, d => d
  | p :: rest, vals, d =>
    let nxt := match rest with
      | [] => AMPointer.null
      | q :: _ => q
    pass1 k rest (vals.drop k)
      (setD d p.location ⟨nxt, (vals.take k).length, vals.take k⟩)

/-- Second pass of `LinkedListGlobal::write` (linkedlist.rs:110), from the
tail back to the head, skipping the last block: refresh the header's `next`
checksum against the (already final) child block and rewrite the header in
place, keeping the block's entries. -/
def pass2 {T : Type} (chkf : LLGBlock T → Nat) :
    List AMPointer → (Nat → LLGBlock T) → Nat → LLGBlock T
  | [], d => d
  | [_], d => d
  | p :: q :: rest, d =>
    let d₁ := pass2 chkf (q :: rest) d
    setD d₁ p.location
      (withNext (d₁ p.location) (withChecksum q (chkf (d₁ q.location))))

/-- `LinkedListGlobal::write` (linkedlist.rs:65): `ent_each = k` entries per
block, `blocks = 1` for the empty vector else `⌈len / k⌉`; allocate the
block pointers, fill blocks (pass 1), update the chain checksums from tail
to head (pass 2), and return the head pointer with its checksum updated
against the final head block. -/
def writeLLG {T : Type} (chkf : LLGBlock T → Nat) (k : Nat) (v : List T)
    (a : AllocatorObj) (d : Nat → LLGBlock T) :
    MRes AMPointer × AllocatorObj × (Nat → LLGBlock T) :=
  match allocPtrs (if v.length = 0 then 1 else (v.length + (k - 1)) / k) a with
  | (.ok [], a₁) => (.crash, a₁, d)
  | (.ok (p₀ :: tl), a₁) =>
    (.ok (withChecksum p₀
        (chkf (pass2 chkf (p₀ :: tl) (pass1 k (p₀ :: tl) v d) p₀.location))),
      a₁, pass2 chkf (p₀ :: tl) (pass1 k (p₀ :: tl) v d))
  | (.err e, a₁) => (.err e, a₁, d)
  | (.crash, a₁) => (.crash, a₁, d)

/-- `LinkedListGlobal::read` (linkedlist.rs:39), with fuel standing in for
the unbounded `loop`: stop on a null pointer; `assert!(p.validate(..))`
(panic on a length ≠ 1 or a checksum mismatch); collect `count` entries
and follow `next`. -/
def readLLG {T : Type} (chkf : LLGBlock T → Nat) :
    Nat → AMPointer → (Nat → LLGBlock T) → MRes (List T)
  | 0, _, _ => .crash
  | fuel + 1, p, d =>
    if p.is_null then .ok []
    else if p.len ≠ 1 then .crash
    else if chkf (d p.location) = p.checksum then
      match readLLG chkf fuel (d p.location).next d with
      | .ok rest => .ok ((d p.location).entries.take (d p.location).count ++ rest)
      | .err e => .err e
      | .crash => .crash
    else .crash

/-! ## Superblock byte layout and mount (ondisk/superblock.rs, fs.rs)

`Superblock` is `repr(C)`, 4096 bytes: signature at 0..8, devid (u64 LE) at
8..16, features at 16..272, geometries at 272..528, checksum (u32 LE) at
528..532, padding, `latest_root` at 2047, rootnodes at 2048..4096. -/

/-- Little-endian value of a byte list. -/
def leBytes (bs : List Nat) : Nat :=
  bs.foldr (fun b acc => b % 256 + 256 * acc) 0

/-- The superblock image with its checksum field (bytes 528..532) zeroed,
the buffer `Superblock::verify_checksum` (superblock.rs:74) hashes. -/
def sbZeroChecksum (blk : List Nat) : List Nat :=
  blk.take 528 ++ [0, 0, 0, 0] ++ blk.drop 532

/-- The `devid` field: bytes 8..16, little endian. -/
def sbDevid (blk : List Nat) : Nat := leBytes ((blk.drop 8).take 8)

/-- The stored `checksum` field: bytes 528..532, little endian. -/
def sbChecksumField (blk : List Nat) : Nat := leBytes ((blk.drop 528).take 4)

/-- `Superblock::read` (superblock.rs:48) on the raw block: verify the
signature, then the internal checksum (CRC32 of the block with the checksum
field zeroed), then `devid != 0`, failing with `Signature`, `Checksum`,
`DiskID` respectively. -/
def Superblock.read_bytes (blk : List Nat) : MRes Unit :=
  if blk.take 8 ≠ SIGNATURE then .err .Signature
  else if crc32 (sbZeroChecksum blk) ≠ sbChecksumField blk then .err .Checksum
  else if sbDevid blk = 0 then .err .DiskID
  else .ok ()

/-- `AMFS::load_superblocks` (fs.rs:164) on one disk: try the four header
locations, remembering only whether some copy read back `Ok`; if every copy
failed — whatever each copy's error was — the mount error is
`NoSuperblock`. -/
def loadSuperblocksSingle (disk : Nat → List Nat) (locs : List Nat) :
    MRes Unit :=
  if locs.all (fun l => match Superblock.read_bytes (disk l) with
      | .ok _ => false
      | _ => true) then .err .NoSuperblock
  else .ok ()

/-! ### Toolkit lemmas about extent lists -/

theorem naf_iff : ∀ {l : List (Nat × Extent)}, naf l ↔ nafB l = true := by
  intro l
  induction l with
  | nil => simp [naf, nafB]
  | cons a t ih =>
    cases t with
    | nil => simp [naf, nafB]
    | cons b t₂ =>
      constructor
      · intro h
        have h' := List.chain'_cons.mp h
        show ((a.2.used || b.2.used) && nafB (b :: t₂)) = true
        rw [Bool.and_eq_true, Bool.or_eq_true]
        exact ⟨h'.1, ih.mp h'.2⟩
      · intro h
        have h' : ((a.2.used || b.2.used) && nafB (b :: t₂)) = true := h
        rw [Bool.and_eq_true, Bool.or_eq_true] at h'
        exact List.chain'_cons.mpr ⟨h'.1, ih.mpr h'.2⟩



theorem tileB_le {l : List (Nat × Extent)} :
    ∀ {pos total : Nat}, tileB pos total l = true → pos ≤ total := by
  induction l with
  | nil => intro pos total h; simp [tileB] at h; omega
  | cons h t ih =>
    obtain ⟨k, e⟩ := h
    intro pos total hh
    simp only [tileB, Bool.and_eq_true, beq_iff_eq, decide_eq_true_eq, and_assoc] at hh
    have := ih hh.2.2; omega

theorem tileB_append {l₁ l₂ : List (Nat × Extent)} :
    ∀ {pos total : Nat}, tileB pos total (l₁ ++ l₂) = true ↔
      ∃ mid, tileB pos mid l₁ = true ∧ tileB mid total l₂ = true := by
  induction l₁ with
  | nil =>
    intro pos total
    constructor
    · intro h; exact ⟨pos, by simp [tileB], h⟩
    · rintro ⟨mid, h₁, h₂⟩
      simp only [tileB, beq_iff_eq] at h₁; subst h₁; simpa using h₂
  | cons h t ih =>
    obtain ⟨k, e⟩ := h
    intro pos total
    constructor
    · intro hh
      simp only [List.cons_append, tileB, Bool.and_eq_true, beq_iff_eq,
        decide_eq_true_eq, and_assoc] at hh
      obtain ⟨hk, hs, ht⟩ := hh
      obtain ⟨mid, h₁, h₂⟩ := ih.mp ht
      refine ⟨mid, ?_, h₂⟩
      simp only [tileB, Bool.and_eq_true, beq_iff_eq, decide_eq_true_eq, and_assoc]
      exact ⟨hk, hs, h₁⟩
    · rintro ⟨mid, h₁, h₂⟩
      simp only [tileB, Bool.and_eq_true, beq_iff_eq, decide_eq_true_eq,
        and_assoc] at h₁
      obtain ⟨hk, hs, h₁⟩ := h₁
      simp only [List.cons_append, tileB, Bool.and_eq_true, beq_iff_eq,
        decide_eq_true_eq, and_assoc]
      exact ⟨hk, hs, ih.mpr ⟨mid, h₁, h₂⟩⟩

theorem tileB_key_bounds {l : List (Nat × Extent)} :
    ∀ {pos total : Nat}, tileB pos total l = true →
      ∀ p ∈ l, pos ≤ p.1 ∧ p.1 < total := by
  induction l with
  | nil => intro pos total _ p hp; cases hp
  | cons h t ih =>
    obtain ⟨k, e⟩ := h
    intro pos total hh p hp
    simp only [tileB, Bool.and_eq_true, beq_iff_eq, decide_eq_true_eq, and_assoc] at hh
    obtain ⟨hk, hs, ht⟩ := hh
    rcases List.mem_cons.mp hp with hp | hp
    · subst hp
      have := tileB_le ht
      dsimp only
      omega
    · have := ih ht p hp; omega

theorem usedAtL_out {l : List (Nat × Extent)} :
    ∀ {pos total : Nat}, tileB pos total l = true →
      ∀ {b : Nat}, (b < pos ∨ total ≤ b) → usedAtL b l = false := by
  induction l with
  | nil => intro pos total _ b _; rfl
  | cons h t ih =>
    obtain ⟨k, e⟩ := h
    intro pos total hh b hb
    simp only [tileB, Bool.and_eq_true, beq_iff_eq, decide_eq_true_eq, and_assoc] at hh
    obtain ⟨hk, hs, ht⟩ := hh
    subst hk
    have hle := tileB_le ht
    simp only [usedAtL]
    split
    · rename_i hcond
      simp only [Bool.and_eq_true, decide_eq_true_eq] at hcond
      omega
    · exact ih ht (by omega)

theorem usedExtL_out {l : List (Nat × Extent)} :
    ∀ {pos total : Nat}, tileB pos total l = true →
      ∀ {x : Nat}, (x < pos ∨ total ≤ x) → usedExtL x l = none := by
  induction l with
  | nil => intro pos total _ x _; rfl
  | cons h t ih =>
    obtain ⟨k, e⟩ := h
    intro pos total hh x hx
    simp only [tileB, Bool.and_eq_true, beq_iff_eq, decide_eq_true_eq, and_assoc] at hh
    obtain ⟨hk, hs, ht⟩ := hh
    subst hk
    have hle := tileB_le ht
    simp only [usedExtL]
    split
    · omega
    · exact ih ht (by omega)

theorem usedAtL_append {l₁ l₂ : List (Nat × Extent)} {pos mid total : Nat}
    (h₁ : tileB pos mid l₁ = true) (h₂ : tileB mid total l₂ = true) (b : Nat) :
    usedAtL b (l₁ ++ l₂) = if b < mid then usedAtL b l₁ else usedAtL b l₂ := by
  induction l₁ generalizing pos with
  | nil =>
    simp only [tileB, beq_iff_eq] at h₁; subst h₁
    simp only [List.nil_append, usedAtL]
    split
    · rename_i hb; exact usedAtL_out h₂ (Or.inl hb)
    · rfl
  | cons h t ih =>
    obtain ⟨k, e⟩ := h
    simp only [tileB, Bool.and_eq_true, beq_iff_eq, decide_eq_true_eq, and_assoc] at h₁
    obtain ⟨hk, hs, ht⟩ := h₁
    subst hk
    have hmid := tileB_le ht
    simp only [List.cons_append, usedAtL]
    split
    · rename_i hcond
      simp only [Bool.and_eq_true, decide_eq_true_eq] at hcond
      rw [if_pos (by omega)]
    · exact ih ht

theorem usedExtL_append {l₁ l₂ : List (Nat × Extent)} {pos mid total : Nat}
    (h₁ : tileB pos mid l₁ = true) (h₂ : tileB mid total l₂ = true) (x : Nat) :
    usedExtL x (l₁ ++ l₂) = if x < mid then usedExtL x l₁ else usedExtL x l₂ := by
  induction l₁ generalizing pos with
  | nil =>
    simp only [tileB, beq_iff_eq] at h₁; subst h₁
    simp only [List.nil_append, usedExtL]
    split
    · rename_i hx; exact usedExtL_out h₂ (Or.inl hx)
    · rfl
  | cons h t ih =>
    obtain ⟨k, e⟩ := h
    simp only [tileB, Bool.and_eq_true, beq_iff_eq, decide_eq_true_eq, and_assoc] at h₁
    obtain ⟨hk, hs, ht⟩ := h₁
    subst hk
    have hmid := tileB_le ht
    simp only [List.cons_append, usedExtL]
    split
    · rename_i hx; subst hx; rw [if_pos (show k < mid from by omega)]
    · exact ih ht

theorem freeSpaceL_append (l₁ l₂ : List (Nat × Extent)) :
    freeSpaceL (l₁ ++ l₂) = freeSpaceL l₁ + freeSpaceL l₂ := by
  induction l₁ with
  | nil => simp [freeSpaceL]
  | cons h t ih =>
    obtain ⟨k, e⟩ := h
    simp only [List.cons_append, freeSpaceL, List.append_eq]
    rw [ih]; omega

theorem findExact_decomp {n : Nat} {l : List (Nat × Extent)} {a : Nat}
    (h : findExact n l = some a) :
    ∃ l₁ l₂, l = l₁ ++ (a, ⟨n, false⟩) :: l₂ := by
  induction l with
  | nil => simp [findExact] at h
  | cons hd t ih =>
    obtain ⟨k, e⟩ := hd
    simp only [findExact] at h
    split at h
    · rename_i hc
      simp only [Bool.and_eq_true, Bool.not_eq_true', beq_iff_eq] at hc
      injection h with h
      subst h
      obtain ⟨es, eu⟩ := e
      simp only at hc
      obtain ⟨h1, h2⟩ := hc
      subst h1; subst h2
      exact ⟨[], t, rfl⟩
    · obtain ⟨l₁, l₂, rfl⟩ := ih h
      exact ⟨(k, e) :: l₁, l₂, rfl⟩

theorem findLarger_decomp {n : Nat} {l : List (Nat × Extent)} {a se : Nat}
    (h : findLarger n l = some (a, se)) :
    n < se ∧ ∃ l₁ l₂, l = l₁ ++ (a, ⟨se, false⟩) :: l₂ := by
  induction l with
  | nil => simp [findLarger] at h
  | cons hd t ih =>
    obtain ⟨k, e⟩ := hd
    simp only [findLarger] at h
    split at h
    · rename_i hc
      simp only [Bool.and_eq_true, Bool.not_eq_true', decide_eq_true_eq] at hc
      injection h with h
      injection h with h₁ h₂
      subst h₁; subst h₂
      obtain ⟨es, eu⟩ := e
      simp only at hc
      obtain ⟨h1, h2⟩ := hc
      subst h1
      exact ⟨h2, [], t, rfl⟩
    · obtain ⟨hlt, l₁, l₂, rfl⟩ := ih h
      exact ⟨hlt, (k, e) :: l₁, l₂, rfl⟩

theorem usedExtL_decomp {x : Nat} {l : List (Nat × Extent)} {sz : Nat}
    (h : usedExtL x l = some sz) :
    ∃ l₁ l₂, l = l₁ ++ (x, ⟨sz, true⟩) :: l₂ := by
  induction l with
  | nil => simp [usedExtL] at h
  | cons hd t ih =>
    obtain ⟨k, e⟩ := hd
    simp only [usedExtL] at h
    split at h
    · rename_i hk
      subst hk
      split at h
      · rename_i hu
        injection h with h
        obtain ⟨es, eu⟩ := e
        simp only at hu h
        subst hu; subst h
        exact ⟨[], t, rfl⟩
      · cases h
    · obtain ⟨l₁, l₂, rfl⟩ := ih h
      exact ⟨(k, e) :: l₁, l₂, rfl⟩

theorem btGet_decomp {k : Nat} {l₁ l₂ : List (Nat × Extent)} {e : Extent}
    (h : ∀ p ∈ l₁, p.1 ≠ k) :
    btGet k (l₁ ++ (k, e) :: l₂) = some e := by
  induction l₁ with
  | nil => simp [btGet]
  | cons hd t ih =>
    obtain ⟨k₁, e₁⟩ := hd
    have hne : k ≠ k₁ := fun hh => (h (k₁, e₁) (List.mem_cons_self _ _)) hh.symm
    simp only [List.cons_append, btGet, if_neg hne, List.append_eq]
    exact ih (fun p hp => h p (List.mem_cons_of_mem _ hp))

theorem btSet_decomp {k : Nat} {v : Extent} {l₁ l₂ : List (Nat × Extent)} {e : Extent}
    (h : ∀ p ∈ l₁, p.1 ≠ k) :
    btSet k v (l₁ ++ (k, e) :: l₂) = l₁ ++ (k, v) :: l₂ := by
  induction l₁ with
  | nil => simp [btSet]
  | cons hd t ih =>
    obtain ⟨k₁, e₁⟩ := hd
    have hne : k ≠ k₁ := fun hh => (h (k₁, e₁) (List.mem_cons_self _ _)) hh.symm
    simp only [List.cons_append, btSet, if_neg hne, List.append_eq]
    rw [ih (fun p hp => h p (List.mem_cons_of_mem _ hp))]

theorem btSetUsed_decomp {k : Nat} {l₁ l₂ : List (Nat × Extent)} {e : Extent}
    (h : ∀ p ∈ l₁, p.1 ≠ k) :
    btSetUsed k (l₁ ++ (k, e) :: l₂) = l₁ ++ (k, { e with used := true }) :: l₂ := by
  induction l₁ with
  | nil => simp [btSetUsed]
  | cons hd t ih =>
    obtain ⟨k₁, e₁⟩ := hd
    have hne : k ≠ k₁ := fun hh => (h (k₁, e₁) (List.mem_cons_self _ _)) hh.symm
    simp only [List.cons_append, btSetUsed, if_neg hne, List.append_eq]
    rw [ih (fun p hp => h p (List.mem_cons_of_mem _ hp))]

theorem btAddSize_decomp {k d : Nat} {l₁ l₂ : List (Nat × Extent)} {e : Extent}
    (h : ∀ p ∈ l₁, p.1 ≠ k) :
    btAddSize k d (l₁ ++ (k, e) :: l₂) =
      l₁ ++ (k, { e with size := e.size + d }) :: l₂ := by
  induction l₁ with
  | nil => simp [btAddSize]
  | cons hd t ih =>
    obtain ⟨k₁, e₁⟩ := hd
    have hne : k ≠ k₁ := fun hh => (h (k₁, e₁) (List.mem_cons_self _ _)) hh.symm
    simp only [List.cons_append, btAddSize, if_neg hne, List.append_eq]
    rw [ih (fun p hp => h p (List.mem_cons_of_mem _ hp))]

theorem btRemove_decomp {k : Nat} {l₁ l₂ : List (Nat × Extent)} {e : Extent}
    (h : ∀ p ∈ l₁, p.1 ≠ k) :
    btRemove k (l₁ ++ (k, e) :: l₂) = l₁ ++ l₂ := by
  induction l₁ with
  | nil => simp [btRemove]
  | cons hd t ih =>
    obtain ⟨k₁, e₁⟩ := hd
    have hne : k ≠ k₁ := fun hh => (h (k₁, e₁) (List.mem_cons_self _ _)) hh.symm
    simp only [List.cons_append, btRemove, if_neg hne, List.append_eq]
    rw [ih (fun p hp => h p (List.mem_cons_of_mem _ hp))]

theorem btInsert_front {m : Nat} {v : Extent} {l : List (Nat × Extent)}
    (h : ∀ p ∈ l, m < p.1) : btInsert m v l = (m, v) :: l := by
  cases l with
  | nil => rfl
  | cons hd t =>
    obtain ⟨k₁, e₁⟩ := hd
    have hk := h (k₁, e₁) (List.mem_cons_self _ _)
    simp [btInsert, if_pos hk]

theorem btInsert_skip {m : Nat} {v : Extent} {l₁ l₂ : List (Nat × Extent)}
    (h : ∀ p ∈ l₁, p.1 < m) :
    btInsert m v (l₁ ++ l₂) = l₁ ++ btInsert m v l₂ := by
  induction l₁ with
  | nil => rfl
  | cons hd t ih =>
    obtain ⟨k₁, e₁⟩ := hd
    have hk := h (k₁, e₁) (List.mem_cons_self _ _)
    simp only [List.cons_append, btInsert, List.append_eq,
      if_neg (show ¬ m < k₁ from by omega), if_neg (show ¬ m = k₁ from by omega)]
    rw [ih (fun p hp => h p (List.mem_cons_of_mem _ hp))]

theorem btPred_decomp {k : Nat} {l₁ l₂ : List (Nat × Extent)} {e : Extent}
    (h₁ : ∀ p ∈ l₁, p.1 < k) (h₂ : ∀ p ∈ l₂, k < p.1) :
    btPred k (l₁ ++ (k, e) :: l₂) = l₁.getLast? := by
  unfold btPred
  rw [List.filter_append]
  rw [List.filter_eq_self.mpr (fun p hp => by simpa using h₁ p hp)]
  rw [show List.filter (fun p => decide (p.1 < k)) ((k, e) :: l₂) = [] from ?_]
  · simp
  · rw [List.filter_eq_nil_iff]
    intro p hp
    rcases List.mem_cons.mp hp with hp | hp
    · subst hp; simp
    · have := h₂ p hp; simp; omega

theorem btSuccAfter_decomp {k : Nat} {l₁ l₂ : List (Nat × Extent)} {e : Extent}
    (h₁ : ∀ p ∈ l₁, p.1 < k) (h₂ : ∀ p ∈ l₂, k < p.1) :
    btSuccAfter k (l₁ ++ (k, e) :: l₂) = l₂.head? := by
  unfold btSuccAfter
  rw [List.filter_append]
  rw [show List.filter (fun p => decide (k ≤ p.1)) l₁ = [] from ?_]
  · simp only [List.nil_append, List.filter_cons]
    rw [if_pos (by simp)]
    rw [List.filter_eq_self.mpr (fun p hp => by have := h₂ p hp; simp; omega)]
    simp
  · rw [List.filter_eq_nil_iff]
    intro p hp
    have := h₁ p hp; simp; omega

theorem listGetLast_decomp {α : Type} {l : List α} {a : α}
    (h : l.getLast? = some a) : ∃ l₁, l = l₁ ++ [a] := by
  induction l with
  | nil => cases h
  | cons hd t ih =>
    cases ht : t with
    | nil => subst ht; simp only [List.getLast?_singleton] at h
             injection h with h; subst h; exact ⟨[], rfl⟩
    | cons b u =>
      subst ht
      rw [List.getLast?_cons_cons] at h
      obtain ⟨l₁, hl⟩ := ih h
      exact ⟨hd :: l₁, by rw [List.cons_append, ← hl]⟩

theorem freeSpaceL_le {l : List (Nat × Extent)} :
    ∀ {pos total : Nat}, tileB pos total l = true →
      freeSpaceL l ≤ total - pos := by
  induction l with
  | nil => intro pos total h; simp [freeSpaceL]
  | cons h t ih =>
    obtain ⟨k, e⟩ := h
    intro pos total hh
    simp only [tileB, Bool.and_eq_true, beq_iff_eq, decide_eq_true_eq, and_assoc] at hh
    obtain ⟨hk, hs, ht⟩ := hh
    have h₁ := ih ht
    have h₂ := tileB_le ht
    simp only [freeSpaceL]
    split <;> omega

theorem head?_append_left {α : Type} {l l₂ : List α} (h : l ≠ []) :
    (l ++ l₂).head? = l.head? := by
  cases l with
  | nil => exact absurd rfl h
  | cons a t => rfl

/-- Replacing a middle segment that tiles the same range `[mid, mid₂)`
preserves tiling and changes `usedAtL` / `usedExtL` only inside the range;
free space changes by the segments' difference. -/
theorem seg_conclusions {l₁ seg seg' l₂ : List (Nat × Extent)} {mid mid₂ total : Nat}
    (h₁ : tileB 0 mid l₁ = true) (hseg : tileB mid mid₂ seg = true)
    (hseg' : tileB mid mid₂ seg' = true) (h₂ : tileB mid₂ total l₂ = true) :
    tileB 0 total (l₁ ++ (seg' ++ l₂)) = true ∧
    (∀ b, usedAtL b (l₁ ++ (seg' ++ l₂)) =
      if mid ≤ b ∧ b < mid₂ then usedAtL b seg'
      else usedAtL b (l₁ ++ (seg ++ l₂))) ∧
    (∀ x, usedExtL x (l₁ ++ (seg' ++ l₂)) =
      if mid ≤ x ∧ x < mid₂ then usedExtL x seg'
      else usedExtL x (l₁ ++ (seg ++ l₂))) ∧
    freeSpaceL (l₁ ++ (seg' ++ l₂)) + freeSpaceL seg =
      freeSpaceL (l₁ ++ (seg ++ l₂)) + freeSpaceL seg' := by
  have hts : tileB mid total (seg ++ l₂) = true := tileB_append.mpr ⟨mid₂, hseg, h₂⟩
  have hts' : tileB mid total (seg' ++ l₂) = true := tileB_append.mpr ⟨mid₂, hseg', h₂⟩
  have hmid : mid ≤ mid₂ := tileB_le hseg
  refine ⟨tileB_append.mpr ⟨mid, h₁, hts'⟩, ?_, ?_, ?_⟩
  · intro b
    rw [usedAtL_append h₁ hts' b, usedAtL_append h₁ hts b,
        usedAtL_append hseg' h₂ b, usedAtL_append hseg h₂ b]
    have o₁ : b < mid ∨ mid ≤ b := by omega
    split_ifs with c₁ c₂ c₃ c₄ c₅ <;> first | rfl | omega
  · intro x
    rw [usedExtL_append h₁ hts' x, usedExtL_append h₁ hts x,
        usedExtL_append hseg' h₂ x, usedExtL_append hseg h₂ x]
    split_ifs with c₁ c₂ c₃ c₄ c₅ <;> first | rfl | omega
  · rw [freeSpaceL_append, freeSpaceL_append, freeSpaceL_append, freeSpaceL_append]
    omega

/-- Replacing a middle segment preserves the no-adjacent-free invariant,
given the new segment is internally fine and compatible at both seams. -/
theorem seg_naf {l₁ seg seg' l₂ : List (Nat × Extent)}
    (hn : naf (l₁ ++ (seg ++ l₂))) (hs' : naf seg')
    (hsne : seg ≠ []) (hsne' : seg' ≠ [])
    (hhead : ∀ x ∈ l₁.getLast?, ∀ q ∈ seg'.head?,
        (∀ p ∈ seg.head?, x.2.used = true ∨ p.2.used = true) →
        (x.2.used = true ∨ q.2.used = true))
    (hlast : ∀ y ∈ l₂.head?, ∀ q ∈ seg'.getLast?,
        (∀ p ∈ seg.getLast?, p.2.used = true ∨ y.2.used = true) →
        (q.2.used = true ∨ y.2.used = true)) :
    naf (l₁ ++ (seg' ++ l₂)) := by
  unfold naf at hn hs' ⊢
  rw [List.chain'_append] at hn ⊢
  obtain ⟨hc₁, hc₂, hb₁⟩ := hn
  rw [List.chain'_append] at hc₂
  obtain ⟨hcs, hcl₂, hb₂⟩ := hc₂
  refine ⟨hc₁, ?_, ?_⟩
  · rw [List.chain'_append]
    refine ⟨hs', hcl₂, ?_⟩
    intro q hq y hy
    exact hlast y hy q hq (fun p hp => hb₂ p hp y hy)
  · intro x hx q hq
    rw [head?_append_left hsne'] at hq
    refine hhead x hx q hq (fun p hp => ?_)
    exact hb₁ x hx p (by rw [head?_append_left hsne]; exact hp)


/-! ### Effect lemmas for `alloc`, `free` and `alloc_many` -/

/-- A successful `alloc n` returns a fresh extent `[a, a+n)` that was free,
marks exactly it used, and leaves everything else unchanged. -/
theorem alloc_ok_spec {s : AllocatorObj} {n a : Nat} {s₁ : AllocatorObj}
    (hwf : s.wf = true) (hnaf : naf s.extents)
    (h : s.alloc n = (.ok a, s₁)) :
    s₁.size = s.size ∧ s₁.wf = true ∧ naf s₁.extents ∧
    (∀ b, usedAtL b s₁.extents =
      (usedAtL b s.extents || (decide (a ≤ b) && decide (b < a + n)))) ∧
    (∀ b, a ≤ b → b < a + n → usedAtL b s.extents = false) ∧
    (∀ x, usedExtL x s₁.extents = if x = a then some n else usedExtL x s.extents) ∧
    freeSpaceL s₁.extents + n = freeSpaceL s.extents ∧ 0 < n := by
  unfold AllocatorObj.alloc at h
  split at h
  · simp at h
  split at h
  · simp at h
  rename_i hn0 hns
  have hnpos : 0 < n := Nat.pos_of_ne_zero hn0
  split at h
  case h_1 a₀ hfe =>
    simp only [Prod.mk.injEq, MRes.ok.injEq] at h
    obtain ⟨rfl, rfl⟩ := h
    obtain ⟨l₁, l₂, hl⟩ := findExact_decomp hfe
    have hwf₂ : tileB 0 s.size s.extents = true := hwf
    rw [hl] at hwf₂
    obtain ⟨mid, ht₁, ht₂⟩ := tileB_append.mp hwf₂
    simp only [tileB, Bool.and_eq_true, beq_iff_eq, decide_eq_true_eq, and_assoc] at ht₂
    obtain ⟨hamid, hpos, ht₃⟩ := ht₂
    subst hamid
    have hkeys : ∀ p ∈ l₁, p.1 ≠ a₀ :=
      fun p hp => by have := tileB_key_bounds ht₁ p hp; omega
    have hext : btSetUsed a₀ s.extents = l₁ ++ ((a₀, ⟨n, true⟩) :: l₂) := by
      rw [hl, btSetUsed_decomp hkeys]
    have hsega : tileB a₀ (a₀ + n) [(a₀, (⟨n, false⟩ : Extent))] = true := by
      simp [tileB]; omega
    have hsegb : tileB a₀ (a₀ + n) [(a₀, (⟨n, true⟩ : Extent))] = true := by
      simp [tileB]; omega
    have hshape : ∀ v : Extent, ∀ r : List (Nat × Extent),
        l₁ ++ ([(a₀, v)] ++ r) = l₁ ++ ((a₀, v) :: r) := fun v r => rfl
    have hc := seg_conclusions ht₁ hsega hsegb ht₃
    have hco := seg_conclusions ht₁ hsega hsega ht₃
    rw [hshape, hshape, ← hl] at hc
    rw [hshape, ← hl] at hco
    obtain ⟨hTile, hUsed, hExt, hFs⟩ := hc
    refine ⟨rfl, ?_, ?_, ?_, ?_, ?_, ?_, hnpos⟩
    · show tileB 0 s.size _ = true
      rw [hext]; exact hTile
    · show naf (btSetUsed a₀ s.extents)
      rw [hext, ← hshape]
      refine seg_naf (by rw [hshape, ← hl]; exact hnaf) ?_ (by simp) (by simp) ?_ ?_
      · unfold naf; simp
      · intro x hx q hq hp
        simp only [List.head?_cons, Option.mem_def, Option.some.injEq] at hq
        subst hq; right; rfl
      · intro y hy q hq hp
        simp only [List.getLast?_singleton, Option.mem_def, Option.some.injEq] at hq
        subst hq; left; rfl
    · intro b
      rw [hext, hUsed b]
      by_cases hin : a₀ ≤ b ∧ b < a₀ + n
      · rw [if_pos hin]
        have hold := hco.2.1 b
        rw [if_pos hin] at hold
        rw [hold]
        simp [usedAtL, hin.1, hin.2]
      · rw [if_neg hin]
        have hz : (decide (a₀ ≤ b) && decide (b < a₀ + n)) = false := by
          rcases Nat.lt_or_ge b a₀ with hlt | hge
          · simp; omega
          · simp; omega
        rw [hz, Bool.or_false]
    · intro b hb₁ hb₂
      have hold := hco.2.1 b
      rw [if_pos ⟨hb₁, hb₂⟩] at hold
      rw [hold]
      simp [usedAtL, hb₁, hb₂]
    · intro x
      rw [hext, hExt x]
      by_cases hxa : x = a₀
      · subst hxa
        rw [if_pos ⟨Nat.le_refl x, by omega⟩, if_pos rfl]
        simp [usedExtL]
      · rw [if_neg (show ¬ x = a₀ from hxa)]
        by_cases hin : a₀ ≤ x ∧ x < a₀ + n
        · rw [if_pos hin]
          have hold := hco.2.2.1 x
          rw [if_pos hin] at hold
          rw [hold]
          simp only [usedExtL]
          rw [if_neg (show ¬ a₀ = x from fun hc => hxa hc.symm), if_neg (show ¬ a₀ = x from fun hc => hxa hc.symm)]
        · rw [if_neg hin]
    · rw [hext]
      rw [hl] at hFs ⊢
      simp [freeSpaceL_append, freeSpaceL] at hFs ⊢
      omega
  case h_2 hfe =>
    split at h
    case h_1 a₀ se hfl =>
      simp only [Prod.mk.injEq, MRes.ok.injEq] at h
      obtain ⟨rfl, rfl⟩ := h
      obtain ⟨hlt, l₁, l₂, hl⟩ := findLarger_decomp hfl
      have hwf₂ : tileB 0 s.size s.extents = true := hwf
      rw [hl] at hwf₂
      obtain ⟨mid, ht₁, ht₂⟩ := tileB_append.mp hwf₂
      simp only [tileB, Bool.and_eq_true, beq_iff_eq, decide_eq_true_eq, and_assoc] at ht₂
      obtain ⟨hamid, hpos, ht₃⟩ := ht₂
      subst hamid
      have hkeys : ∀ p ∈ l₁, p.1 ≠ a₀ :=
        fun p hp => by have := tileB_key_bounds ht₁ p hp; omega
      have hkeyslt : ∀ p ∈ l₁, p.1 < a₀ + n :=
        fun p hp => by have := tileB_key_bounds ht₁ p hp; omega
      have hl₂keys : ∀ p ∈ l₂, a₀ + n < p.1 :=
        fun p hp => by have := tileB_key_bounds ht₃ p hp; simp at this; omega
      have hext1 : btSet a₀ ⟨n, true⟩ s.extents = l₁ ++ ((a₀, ⟨n, true⟩) :: l₂) := by
        rw [hl, btSet_decomp hkeys]
      have hext2 : btInsert (a₀ + n) ⟨se - n, false⟩ (btSet a₀ ⟨n, true⟩ s.extents) =
          l₁ ++ ((a₀, ⟨n, true⟩) :: (a₀ + n, ⟨se - n, false⟩) :: l₂) := by
        rw [hext1, btInsert_skip hkeyslt]
        have h1 : btInsert (a₀ + n) (⟨se - n, false⟩ : Extent) ((a₀, ⟨n, true⟩) :: l₂) =
            (a₀, (⟨n, true⟩ : Extent)) :: btInsert (a₀ + n) ⟨se - n, false⟩ l₂ := by
          simp only [btInsert, if_neg (show ¬ a₀ + n < a₀ from by omega),
            if_neg (show ¬ a₀ + n = a₀ from by omega)]
        rw [h1, btInsert_front hl₂keys]
      have hsega : tileB a₀ (a₀ + se) [(a₀, (⟨se, false⟩ : Extent))] = true := by
        simp [tileB]; omega
      have hsegb : tileB a₀ (a₀ + se)
          [(a₀, (⟨n, true⟩ : Extent)), (a₀ + n, (⟨se - n, false⟩ : Extent))] = true := by
        simp [tileB]; omega
      have hshape : ∀ r : List (Nat × Extent),
          l₁ ++ ([(a₀, (⟨se, false⟩ : Extent))] ++ r) =
            l₁ ++ ((a₀, (⟨se, false⟩ : Extent)) :: r) := fun r => rfl
      have hshape2 : ∀ r : List (Nat × Extent),
          l₁ ++ ([(a₀, (⟨n, true⟩ : Extent)), (a₀ + n, (⟨se - n, false⟩ : Extent))] ++ r) =
            l₁ ++ ((a₀, (⟨n, true⟩ : Extent)) :: (a₀ + n, (⟨se - n, false⟩ : Extent)) :: r) :=
        fun r => rfl
      have hc := seg_conclusions ht₁ hsega hsegb ht₃
      have hco := seg_conclusions ht₁ hsega hsega ht₃
      rw [hshape, hshape2, ← hl] at hc
      rw [hshape, ← hl] at hco
      obtain ⟨hTile, hUsed, hExt, hFs⟩ := hc
      refine ⟨rfl, ?_, ?_, ?_, ?_, ?_, ?_, hnpos⟩
      · show tileB 0 s.size _ = true
        rw [hext2]; exact hTile
      · show naf (btInsert (a₀ + n) ⟨se - n, false⟩ (btSet a₀ ⟨n, true⟩ s.extents))
        rw [hext2, ← hshape2]
        refine seg_naf (by rw [hshape, ← hl]; exact hnaf) ?_ (by simp) (by simp) ?_ ?_
        · unfold naf
          simp [List.chain'_cons]
        · intro x hx q hq hp
          simp only [List.head?_cons, Option.mem_def, Option.some.injEq] at hq
          subst hq; right; rfl
        · intro y hy q hq hp
          simp only [Option.mem_def, List.getLast?_cons_cons,
            List.getLast?_singleton, Option.some.injEq] at hq
          subst hq
          rcases hp (a₀, ⟨se, false⟩) rfl with hc | hc
          · cases hc
          · right; exact hc
      · intro b
        rw [hext2, hUsed b]
        by_cases hin : a₀ ≤ b ∧ b < a₀ + se
        · rw [if_pos hin]
          have hold := hco.2.1 b
          rw [if_pos hin] at hold
          rw [hold]
          by_cases hbn : b < a₀ + n
          · simp [usedAtL, hin.1, hin.2, hbn]
          · have h1 : usedAtL b [(a₀, (⟨n, true⟩ : Extent)),
                (a₀ + n, (⟨se - n, false⟩ : Extent))] = false := by
              simp only [usedAtL]
              rw [if_neg (by simp; omega), if_pos (by simp; omega)]
            rw [h1]
            have h2 : usedAtL b [(a₀, (⟨se, false⟩ : Extent))] = false := by
              simp [usedAtL, hin.1]
            rw [h2]
            have hz : (decide (a₀ ≤ b) && decide (b < a₀ + n)) = false := by
              simp; omega
            rw [hz]
            rfl
        · rw [if_neg hin]
          have hz : (decide (a₀ ≤ b) && decide (b < a₀ + n)) = false := by
            rcases Nat.lt_or_ge b a₀ with hlt | hge
            · simp; omega
            · simp; omega
          rw [hz, Bool.or_false]
      · intro b hb₁ hb₂
        have hold := hco.2.1 b
        rw [if_pos ⟨hb₁, by omega⟩] at hold
        rw [hold]
        simp [usedAtL, hb₁]
      · intro x
        rw [hext2, hExt x]
        by_cases hxa : x = a₀
        · subst hxa
          rw [if_pos ⟨Nat.le_refl x, by omega⟩, if_pos rfl]
          simp [usedExtL]
        · rw [if_neg (show ¬ x = a₀ from hxa)]
          by_cases hin : a₀ ≤ x ∧ x < a₀ + se
          · rw [if_pos hin]
            have hold := hco.2.2.1 x
            rw [if_pos hin] at hold
            rw [hold]
            simp only [usedExtL]
            rw [if_neg (show ¬ a₀ = x from fun hc => hxa hc.symm)]
            by_cases hxan : a₀ + n = x
            · rw [if_pos hxan]
              rw [if_neg (show ¬ a₀ = x from fun hc => hxa hc.symm)]
              simp
            · rw [if_neg hxan]
              rw [if_neg (show ¬ a₀ = x from fun hc => hxa hc.symm)]
          · rw [if_neg hin]
      · rw [hext2]
        rw [hl] at hFs ⊢
        simp [freeSpaceL_append, freeSpaceL] at hFs ⊢
        omega
    case h_2 hfl =>
      simp at h

/-- A failing `alloc` leaves the allocator untouched with `AllocFailed`. -/
theorem alloc_err_spec {s : AllocatorObj} {n : Nat} {e : AMError}
    {s₁ : AllocatorObj} (h : s.alloc n = (.err e, s₁)) :
    s₁ = s ∧ e = .AllocFailed := by
  unfold AllocatorObj.alloc at h
  split at h
  · simp at h
  split at h
  · simp at h
  split at h
  · simp at h
  · split at h
    · simp at h
    · simp only [Prod.mk.injEq, MRes.err.injEq] at h
      exact ⟨h.2.symm, h.1.symm⟩

/-- Common final step for the four merge cases of `free`: the freed
segment collapses to one free extent spanning `[mid, mid₂)`. -/
theorem free_finish {s s₁ : AllocatorObj} {addr sz mid mid₂ : Nat}
    {pre seg suf : List (Nat × Extent)}
    (hsize : s₁.size = s.size)
    (hl : s.extents = pre ++ (seg ++ suf))
    (hl₂ : s₁.extents = pre ++ ([(mid, ⟨mid₂ - mid, false⟩)] ++ suf))
    (ht₁ : tileB 0 mid pre = true) (hseg : tileB mid mid₂ seg = true)
    (ht₃ : tileB mid₂ s.size suf = true)
    (hmm : mid < mid₂)
    (hrange : mid ≤ addr ∧ addr + sz ≤ mid₂ ∧ 0 < sz)
    (hA : ∀ b, usedAtL b seg = (decide (addr ≤ b) && decide (b < addr + sz)))
    (hE : ∀ x, usedExtL x seg = if x = addr then some sz else none)
    (hF : freeSpaceL seg + sz = mid₂ - mid)
    (hnaf : naf s.extents)
    (hhead : ∀ x ∈ pre.getLast?,
      (∀ p ∈ seg.head?, x.2.used = true ∨ p.2.used = true) → x.2.used = true)
    (hlast : ∀ y ∈ suf.head?,
      (∀ p ∈ seg.getLast?, p.2.used = true ∨ y.2.used = true) → y.2.used = true) :
    s₁.wf = true ∧ naf s₁.extents ∧
    (∀ b, usedAtL b s₁.extents =
      (usedAtL b s.extents && !(decide (addr ≤ b) && decide (b < addr + sz)))) ∧
    (∀ x, usedExtL x s₁.extents = if x = addr then none else usedExtL x s.extents) ∧
    freeSpaceL s₁.extents = freeSpaceL s.extents + sz := by
  have hseg' : tileB mid mid₂ [(mid, (⟨mid₂ - mid, false⟩ : Extent))] = true := by
    simp [tileB]; omega
  have hsegne : seg ≠ [] := by
    intro hcon
    rw [hcon] at hseg
    simp only [tileB, beq_iff_eq] at hseg
    omega
  have hc := seg_conclusions ht₁ hseg hseg' ht₃
  rw [← hl] at hc
  rw [← hl₂] at hc
  obtain ⟨hTile, hUsed, hExt, hFs⟩ := hc
  refine ⟨?_, ?_, ?_, ?_, ?_⟩
  · show tileB 0 s₁.size s₁.extents = true
    rw [hsize]; exact hTile
  · rw [hl₂]
    refine seg_naf (by rw [← hl]; exact hnaf) ?_ hsegne (by simp) ?_ ?_
    · unfold naf; simp
    · intro x hx q hq hp
      simp only [List.head?_cons, Option.mem_def, Option.some.injEq] at hq
      subst hq
      left
      exact hhead x hx hp
    · intro y hy q hq hp
      simp only [List.getLast?_singleton, Option.mem_def, Option.some.injEq] at hq
      subst hq
      right
      exact hlast y hy hp
  · intro b
    rw [hUsed b]
    have hco := seg_conclusions ht₁ hseg hseg ht₃
    rw [← hl] at hco
    by_cases hin : mid ≤ b ∧ b < mid₂
    · rw [if_pos hin]
      have hold := hco.2.1 b
      rw [if_pos hin] at hold
      rw [hold, hA b]
      simp [usedAtL]
    · rw [if_neg hin]
      have hz : (decide (addr ≤ b) && decide (b < addr + sz)) = false := by
        rcases Nat.lt_or_ge b addr with hlt | hge
        · simp; omega
        · simp; omega
      rw [hz]
      simp
  · intro x
    rw [hExt x]
    have hco := seg_conclusions ht₁ hseg hseg ht₃
    rw [← hl] at hco
    by_cases hin : mid ≤ x ∧ x < mid₂
    · rw [if_pos hin]
      have hold := hco.2.2.1 x
      rw [if_pos hin] at hold
      rw [hold, hE x]
      have hnone : usedExtL x [(mid, (⟨mid₂ - mid, false⟩ : Extent))] = none := by
        simp only [usedExtL]
        split <;> rfl
      rw [hnone]
      by_cases hxa : x = addr
      · rw [if_pos hxa]
      · rw [if_neg hxa, if_neg hxa]
    · rw [if_neg hin]
      rw [if_neg (show ¬ x = addr from fun hc => hin (by omega))]
  · have h1 : freeSpaceL [(mid, (⟨mid₂ - mid, false⟩ : Extent))] = mid₂ - mid := by
      simp [freeSpaceL]
    omega

/-- Effect of `free` on a used extent `(addr, sz)`: it succeeds, flips
exactly the blocks `[addr, addr+sz)` to free (merging with unused
neighbours), and changes nothing else. -/
theorem free_spec {s : AllocatorObj} {addr sz : Nat}
    (hwf : s.wf = true) (hnaf : naf s.extents)
    (hx : usedExtL addr s.extents = some sz) :
    ∃ s₁, s.free addr = (.ok (), s₁) ∧ s₁.size = s.size ∧ s₁.wf = true ∧
      naf s₁.extents ∧
      (∀ b, usedAtL b s₁.extents =
        (usedAtL b s.extents && !(decide (addr ≤ b) && decide (b < addr + sz)))) ∧
      (∀ x, usedExtL x s₁.extents = if x = addr then none else usedExtL x s.extents) ∧
      freeSpaceL s₁.extents = freeSpaceL s.extents + sz := by
  obtain ⟨l₁, l₂, hl⟩ := usedExtL_decomp hx
  have hwf₂ : tileB 0 s.size s.extents = true := hwf
  rw [hl] at hwf₂
  obtain ⟨mid, ht₁, ht₂⟩ := tileB_append.mp hwf₂
  simp only [tileB, Bool.and_eq_true, beq_iff_eq, decide_eq_true_eq, and_assoc] at ht₂
  obtain ⟨hamid, hszpos, ht₃⟩ := ht₂
  subst hamid
  have hkeys : ∀ p ∈ l₁, p.1 ≠ addr :=
    fun p hp => by have := tileB_key_bounds ht₁ p hp; omega
  have hkeyslt : ∀ p ∈ l₁, p.1 < addr :=
    fun p hp => by have := tileB_key_bounds ht₁ p hp; omega
  have hl₂ge : ∀ p ∈ l₂, addr + sz ≤ p.1 :=
    fun p hp => by have := tileB_key_bounds ht₃ p hp; simp at this; omega
  have hl₂gt : ∀ p ∈ l₂, addr < p.1 :=
    fun p hp => by have := hl₂ge p hp; omega
  have hg : btGet addr s.extents = some ⟨sz, true⟩ := by
    rw [hl]; exact btGet_decomp hkeys
  have hext₁ : btSet addr ⟨sz, false⟩ s.extents =
      l₁ ++ ((addr, (⟨sz, false⟩ : Extent)) :: l₂) := by
    rw [hl, btSet_decomp hkeys]
  have hpred : btPred addr (l₁ ++ ((addr, (⟨sz, false⟩ : Extent)) :: l₂)) =
      l₁.getLast? := btPred_decomp hkeyslt hl₂gt
  have hsucc : btSuccAfter addr (l₁ ++ ((addr, (⟨sz, false⟩ : Extent)) :: l₂)) =
      l₂.head? := btSuccAfter_decomp hkeyslt hl₂gt
  have hNcases : (mergeCandidate l₂.head? = none ∧ ∀ y ∈ l₂.head?, y.2.used = true) ∨
      (∃ ns l₂b, l₂ = (addr + sz, ⟨ns, false⟩) :: l₂b ∧ 0 < ns ∧
        mergeCandidate l₂.head? = some (addr + sz, ⟨ns, false⟩)) := by
    cases hl₂s : l₂ with
    | nil => exact Or.inl ⟨rfl, by simp⟩
    | cons hdp l₂b =>
      obtain ⟨nk, ne⟩ := hdp
      rw [hl₂s] at ht₃
      simp only [tileB, Bool.and_eq_true, beq_iff_eq, decide_eq_true_eq, and_assoc] at ht₃
      obtain ⟨hnk, hns, _⟩ := ht₃
      obtain ⟨nsz, nu⟩ := ne
      cases nu with
      | true => exact Or.inl ⟨by simp [mergeCandidate], by simp⟩
      | false =>
        subst hnk
        exact Or.inr ⟨nsz, l₂b, rfl, by simpa using hns, by simp [mergeCandidate]⟩
  have hPcases : (mergeCandidate l₁.getLast? = none ∧ ∀ x ∈ l₁.getLast?, x.2.used = true) ∨
      (∃ l₁a pk ps, l₁ = l₁a ++ [(pk, ⟨ps, false⟩)] ∧
        mergeCandidate l₁.getLast? = some (pk, ⟨ps, false⟩)) := by
    cases hgl : l₁.getLast? with
    | none => exact Or.inl ⟨rfl, by simp⟩
    | some pp =>
      obtain ⟨pk, pe⟩ := pp
      obtain ⟨psz, pu⟩ := pe
      cases pu with
      | true =>
        refine Or.inl ⟨by simp [mergeCandidate], ?_⟩
        intro x hxm
        simp only [Option.mem_def, hgl, Option.some.injEq] at hxm
        subst hxm; rfl
      | false =>
        obtain ⟨l₁a, hdec⟩ := listGetLast_decomp hgl
        exact Or.inr ⟨l₁a, pk, psz, hdec, by simp [mergeCandidate]⟩
  rcases hPcases with ⟨hmP, hPu⟩ | ⟨l₁a, pk, ps, hl₁dec, hmP⟩ <;>
    rcases hNcases with ⟨hmN, hNu⟩ | ⟨ns, l₂b, hl₂dec, hnspos, hmN⟩
  · -- no merge on either side
    have hfree : s.free addr =
        (.ok (), { s with extents := l₁ ++ ((addr, (⟨sz, false⟩ : Extent)) :: l₂) }) := by
      unfold AllocatorObj.free
      simp only [hg, Bool.not_true, Bool.false_eq_true, if_false, hext₁, hpred, hsucc,
        hmP, hmN]
    refine ⟨_, hfree, rfl, ?_⟩
    have hseg : tileB addr (addr + sz) [(addr, (⟨sz, true⟩ : Extent))] = true := by
      simp [tileB]; omega
    have hl₂eq : ({ s with extents := l₁ ++ ((addr, (⟨sz, false⟩ : Extent)) :: l₂) }
          : AllocatorObj).extents =
        l₁ ++ ([(addr, (⟨addr + sz - addr, false⟩ : Extent))] ++ l₂) := by
      have hq : addr + sz - addr = sz := by omega
      rw [hq]; rfl
    exact free_finish rfl hl hl₂eq ht₁ hseg ht₃ (by omega) ⟨by omega, by omega, hszpos⟩
      (by intro b
          by_cases h1 : addr ≤ b <;> by_cases h2 : b < addr + sz <;>
            simp [usedAtL, h1, h2])
      (by intro x
          simp only [usedExtL]
          by_cases hxx : addr = x
          · rw [if_pos hxx, if_pos hxx.symm]
            simp
          · rw [if_neg hxx, if_neg (show ¬ x = addr from fun hc => hxx hc.symm)])
      (by simp [freeSpaceL])
      hnaf
      (fun x hxm _ => hPu x hxm)
      (fun y hy _ => hNu y hy)
  · -- merge with next only
    subst hl₂dec
    have hadd : btAddSize addr ns (l₁ ++ ((addr, (⟨sz, false⟩ : Extent)) ::
        ((addr + sz, (⟨ns, false⟩ : Extent)) :: l₂b))) =
        l₁ ++ ((addr, (⟨sz + ns, false⟩ : Extent)) ::
          ((addr + sz, (⟨ns, false⟩ : Extent)) :: l₂b)) := by
      rw [btAddSize_decomp hkeys]
    have hrem : btRemove (addr + sz) (l₁ ++ ((addr, (⟨sz + ns, false⟩ : Extent)) ::
        ((addr + sz, (⟨ns, false⟩ : Extent)) :: l₂b))) =
        l₁ ++ ((addr, (⟨sz + ns, false⟩ : Extent)) :: l₂b) := by
      have hsh : l₁ ++ ((addr, (⟨sz + ns, false⟩ : Extent)) ::
          ((addr + sz, (⟨ns, false⟩ : Extent)) :: l₂b)) =
          (l₁ ++ [(addr, (⟨sz + ns, false⟩ : Extent))]) ++
            ((addr + sz, (⟨ns, false⟩ : Extent)) :: l₂b) := by
        simp
      rw [hsh, btRemove_decomp ?_]
      · simp
      · intro p hp
        rcases List.mem_append.mp hp with hp | hp
        · have := hkeyslt p hp; omega
        · simp only [List.mem_singleton] at hp; subst hp; simp; omega
    have hfree : s.free addr =
        (.ok (), { s with extents := l₁ ++ ((addr, (⟨sz + ns, false⟩ : Extent)) :: l₂b) }) := by
      unfold AllocatorObj.free
      simp only [hg, Bool.not_true, Bool.false_eq_true, if_false, hext₁, hpred, hsucc,
        hmP, hmN, hadd, hrem]
    refine ⟨_, hfree, rfl, ?_⟩
    have ht₃b : tileB (addr + sz + ns) s.size l₂b = true := by
      simp only [tileB, Bool.and_eq_true, beq_iff_eq, decide_eq_true_eq, and_assoc] at ht₃
      have := ht₃.2.2
      simpa using this
    have hseg : tileB addr (addr + sz + ns)
        [(addr, (⟨sz, true⟩ : Extent)), (addr + sz, (⟨ns, false⟩ : Extent))] = true := by
      simp [tileB]; omega
    have hleq : s.extents = l₁ ++ (((addr, (⟨sz, true⟩ : Extent)) ::
        ((addr + sz, (⟨ns, false⟩ : Extent)) :: l₂b))) := hl
    have hl₂eq : ({ s with extents := l₁ ++ ((addr, (⟨sz + ns, false⟩ : Extent)) :: l₂b) }
          : AllocatorObj).extents =
        l₁ ++ ([(addr, (⟨addr + sz + ns - addr, false⟩ : Extent))] ++ l₂b) := by
      have hq : addr + sz + ns - addr = sz + ns := by omega
      rw [hq]; rfl
    exact free_finish rfl hleq hl₂eq ht₁ hseg ht₃b (by omega) ⟨by omega, by omega, hszpos⟩
      (by intro b
          by_cases h1 : addr ≤ b <;> by_cases h2 : b < addr + sz <;>
            simp [usedAtL, h1, h2])
      (by intro x
          simp only [usedExtL]
          by_cases hxx : addr = x
          · rw [if_pos hxx, if_pos hxx.symm]
            simp
          · rw [if_neg hxx]
            by_cases hxn : addr + sz = x
            · rw [if_pos hxn, if_neg (show ¬ x = addr from fun hc => hxx hc.symm)]
              try rfl
            · rw [if_neg hxn, if_neg (show ¬ x = addr from fun hc => hxx hc.symm)])
      (by simp [freeSpaceL]; all_goals omega)
      hnaf
      (fun x hxm _ => hPu x hxm)
      (by intro y hy hp
          have := hp (addr + sz, (⟨ns, false⟩ : Extent)) (by simp)
          rcases this with hc | hc
          · simp at hc
          · exact hc)
  · -- merge with previous only
    subst hl₁dec
    have hpre : tileB 0 addr (l₁a ++ [(pk, (⟨ps, false⟩ : Extent))]) = true := ht₁
    obtain ⟨midp, htp₁, htp₂⟩ := tileB_append.mp hpre
    simp only [tileB, Bool.and_eq_true, beq_iff_eq, decide_eq_true_eq, and_assoc] at htp₂
    obtain ⟨hpkmid, hpspos, hpsum⟩ := htp₂
    subst hpkmid
    have hpksum : pk + ps = addr := by omega
    have hl₁akeys : ∀ p ∈ l₁a, p.1 ≠ pk :=
      fun p hp => by have := tileB_key_bounds htp₁ p hp; omega
    have hsh : (l₁a ++ [(pk, (⟨ps, false⟩ : Extent))]) ++
        ((addr, (⟨sz, false⟩ : Extent)) :: l₂) =
        l₁a ++ ((pk, (⟨ps, false⟩ : Extent)) :: ((addr, (⟨sz, false⟩ : Extent)) :: l₂)) := by
      rw [List.append_assoc]
      rfl
    have hadd : btAddSize pk sz ((l₁a ++ [(pk, (⟨ps, false⟩ : Extent))]) ++
        ((addr, (⟨sz, false⟩ : Extent)) :: l₂)) =
        l₁a ++ ((pk, (⟨ps + sz, false⟩ : Extent)) :: ((addr, (⟨sz, false⟩ : Extent)) :: l₂)) := by
      rw [hsh, btAddSize_decomp hl₁akeys]
    have hrem : btRemove addr (l₁a ++ ((pk, (⟨ps + sz, false⟩ : Extent)) ::
        ((addr, (⟨sz, false⟩ : Extent)) :: l₂))) =
        l₁a ++ ((pk, (⟨ps + sz, false⟩ : Extent)) :: l₂) := by
      have hsh₂ : l₁a ++ ((pk, (⟨ps + sz, false⟩ : Extent)) ::
          ((addr, (⟨sz, false⟩ : Extent)) :: l₂)) =
          (l₁a ++ [(pk, (⟨ps + sz, false⟩ : Extent))]) ++
            ((addr, (⟨sz, false⟩ : Extent)) :: l₂) := by
        simp
      rw [hsh₂, btRemove_decomp ?_]
      · simp
      · intro p hp
        rcases List.mem_append.mp hp with hp | hp
        · have := tileB_key_bounds htp₁ p hp; omega
        · simp only [List.mem_singleton] at hp; subst hp; simp; omega
    have hfree : s.free addr =
        (.ok (), { s with extents := l₁a ++ ((pk, (⟨ps + sz, false⟩ : Extent)) :: l₂) }) := by
      unfold AllocatorObj.free
      simp only [hg, Bool.not_true, Bool.false_eq_true, if_false, hext₁, hpred, hsucc,
        hmP, hmN, hadd, hrem]
    refine ⟨_, hfree, rfl, ?_⟩
    have hseg : tileB pk (addr + sz)
        [(pk, (⟨ps, false⟩ : Extent)), (addr, (⟨sz, true⟩ : Extent))] = true := by
      simp [tileB]; omega
    have hleq : s.extents = l₁a ++ (((pk, (⟨ps, false⟩ : Extent)) ::
        ((addr, (⟨sz, true⟩ : Extent)) :: l₂))) := by
      rw [hl]; simp
    have hl₂eq : ({ s with extents := l₁a ++ ((pk, (⟨ps + sz, false⟩ : Extent)) :: l₂) }
          : AllocatorObj).extents =
        l₁a ++ ([(pk, (⟨addr + sz - pk, false⟩ : Extent))] ++ l₂) := by
      have hq : addr + sz - pk = ps + sz := by omega
      rw [hq]; rfl
    exact free_finish rfl hleq hl₂eq htp₁ hseg ht₃ (by omega) ⟨by omega, by omega, hszpos⟩
      (by intro b
          by_cases h1 : pk ≤ b <;> by_cases h2 : b < addr <;>
            by_cases h3 : b < addr + sz <;>
            simp [usedAtL, h1, h2, h3] <;> omega)
      (by intro x
          simp only [usedExtL]
          by_cases hxx : pk = x
          · rw [if_pos hxx, if_neg (show ¬ x = addr from by omega)]
            try rfl
          · rw [if_neg hxx]
            by_cases hxa : addr = x
            · rw [if_pos hxa, if_pos hxa.symm]
              simp
            · rw [if_neg hxa, if_neg (show ¬ x = addr from fun hc => hxa hc.symm)])
      (by simp [freeSpaceL]; all_goals omega)
      hnaf
      (by intro x hxm hp
          have := hp (pk, (⟨ps, false⟩ : Extent)) (by simp)
          rcases this with hc | hc
          · exact hc
          · simp at hc)
      (fun y hy _ => hNu y hy)
  · -- merge on both sides
    subst hl₁dec
    subst hl₂dec
    have hpre : tileB 0 addr (l₁a ++ [(pk, (⟨ps, false⟩ : Extent))]) = true := ht₁
    obtain ⟨midp, htp₁, htp₂⟩ := tileB_append.mp hpre
    simp only [tileB, Bool.and_eq_true, beq_iff_eq, decide_eq_true_eq, and_assoc] at htp₂
    obtain ⟨hpkmid, hpspos, hpsum⟩ := htp₂
    subst hpkmid
    have hpksum : pk + ps = addr := by omega
    have hl₁akeys : ∀ p ∈ l₁a, p.1 ≠ pk :=
      fun p hp => by have := tileB_key_bounds htp₁ p hp; omega
    have ht₃b : tileB (addr + sz + ns) s.size l₂b = true := by
      simp only [tileB, Bool.and_eq_true, beq_iff_eq, decide_eq_true_eq, and_assoc] at ht₃
      have := ht₃.2.2
      simpa using this
    have hadd : btAddSize addr ns ((l₁a ++ [(pk, (⟨ps, false⟩ : Extent))]) ++
        ((addr, (⟨sz, false⟩ : Extent)) :: ((addr + sz, (⟨ns, false⟩ : Extent)) :: l₂b))) =
        (l₁a ++ [(pk, (⟨ps, false⟩ : Extent))]) ++
          ((addr, (⟨sz + ns, false⟩ : Extent)) ::
            ((addr + sz, (⟨ns, false⟩ : Extent)) :: l₂b)) := by
      rw [btAddSize_decomp hkeys]
    have hrem : btRemove (addr + sz) ((l₁a ++ [(pk, (⟨ps, false⟩ : Extent))]) ++
        ((addr, (⟨sz + ns, false⟩ : Extent)) ::
          ((addr + sz, (⟨ns, false⟩ : Extent)) :: l₂b))) =
        (l₁a ++ [(pk, (⟨ps, false⟩ : Extent))]) ++
          ((addr, (⟨sz + ns, false⟩ : Extent)) :: l₂b) := by
      have hsh : (l₁a ++ [(pk, (⟨ps, false⟩ : Extent))]) ++
          ((addr, (⟨sz + ns, false⟩ : Extent)) ::
            ((addr + sz, (⟨ns, false⟩ : Extent)) :: l₂b)) =
          ((l₁a ++ [(pk, (⟨ps, false⟩ : Extent))]) ++ [(addr, (⟨sz + ns, false⟩ : Extent))]) ++
            ((addr + sz, (⟨ns, false⟩ : Extent)) :: l₂b) := by
        simp
      rw [hsh, btRemove_decomp ?_]
      · simp
      · intro p hp
        rcases List.mem_append.mp hp with hp | hp
        · have := hkeyslt p hp; omega
        · simp only [List.mem_singleton] at hp; subst hp; simp; omega
    have hadd₂ : btAddSize pk (sz + ns) ((l₁a ++ [(pk, (⟨ps, false⟩ : Extent))]) ++
        ((addr, (⟨sz + ns, false⟩ : Extent)) :: l₂b)) =
        l₁a ++ ((pk, (⟨ps + (sz + ns), false⟩ : Extent)) ::
          ((addr, (⟨sz + ns, false⟩ : Extent)) :: l₂b)) := by
      have hsh : (l₁a ++ [(pk, (⟨ps, false⟩ : Extent))]) ++
          ((addr, (⟨sz + ns, false⟩ : Extent)) :: l₂b) =
          l₁a ++ ((pk, (⟨ps, false⟩ : Extent)) ::
            ((addr, (⟨sz + ns, false⟩ : Extent)) :: l₂b)) := by
        rw [List.append_assoc]
        rfl
      rw [hsh, btAddSize_decomp hl₁akeys]
    have hrem₂ : btRemove addr (l₁a ++ ((pk, (⟨ps + (sz + ns), false⟩ : Extent)) ::
        ((addr, (⟨sz + ns, false⟩ : Extent)) :: l₂b))) =
        l₁a ++ ((pk, (⟨ps + (sz + ns), false⟩ : Extent)) :: l₂b) := by
      have hsh : l₁a ++ ((pk, (⟨ps + (sz + ns), false⟩ : Extent)) ::
          ((addr, (⟨sz + ns, false⟩ : Extent)) :: l₂b)) =
          (l₁a ++ [(pk, (⟨ps + (sz + ns), false⟩ : Extent))]) ++
            ((addr, (⟨sz + ns, false⟩ : Extent)) :: l₂b) := by
        simp
      rw [hsh, btRemove_decomp ?_]
      · simp
      · intro p hp
        rcases List.mem_append.mp hp with hp | hp
        · have := tileB_key_bounds htp₁ p hp; omega
        · simp only [List.mem_singleton] at hp; subst hp; simp; omega
    have hfree : s.free addr =
        (.ok (), { s with extents :=
          l₁a ++ ((pk, (⟨ps + (sz + ns), false⟩ : Extent)) :: l₂b) }) := by
      unfold AllocatorObj.free
      simp only [hg, Bool.not_true, Bool.false_eq_true, if_false, hext₁, hpred, hsucc,
        hmP, hmN, hadd, hrem, hadd₂, hrem₂]
    refine ⟨_, hfree, rfl, ?_⟩
    have hseg : tileB pk (addr + sz + ns)
        [(pk, (⟨ps, false⟩ : Extent)), (addr, (⟨sz, true⟩ : Extent)),
         (addr + sz, (⟨ns, false⟩ : Extent))] = true := by
      simp [tileB]; omega
    have hleq : s.extents = l₁a ++ (((pk, (⟨ps, false⟩ : Extent)) ::
        ((addr, (⟨sz, true⟩ : Extent)) ::
          ((addr + sz, (⟨ns, false⟩ : Extent)) :: l₂b)))) := by
      rw [hl]; simp
    have hl₂eq : ({ s with extents :=
          l₁a ++ ((pk, (⟨ps + (sz + ns), false⟩ : Extent)) :: l₂b) } : AllocatorObj).extents =
        l₁a ++ ([(pk, (⟨addr + sz + ns - pk, false⟩ : Extent))] ++ l₂b) := by
      have hq : addr + sz + ns - pk = ps + (sz + ns) := by omega
      rw [hq]; rfl
    exact free_finish rfl hleq hl₂eq htp₁ hseg ht₃b (by omega) ⟨by omega, by omega, hszpos⟩
      (by intro b
          by_cases h1 : pk ≤ b <;> by_cases h2 : b < addr <;>
            by_cases h3 : b < addr + sz <;>
            simp [usedAtL, h1, h2, h3] <;> omega)
      (by intro x
          simp only [usedExtL]
          by_cases hxx : pk = x
          · rw [if_pos hxx, if_neg (show ¬ x = addr from by omega)]
            try rfl
          · rw [if_neg hxx]
            by_cases hxa : addr = x
            · rw [if_pos hxa, if_pos hxa.symm]
              simp
            · rw [if_neg hxa]
              by_cases hxn : addr + sz = x
              · rw [if_pos hxn, if_neg (show ¬ x = addr from fun hc => hxa hc.symm)]
                try rfl
              · rw [if_neg hxn, if_neg (show ¬ x = addr from fun hc => hxa hc.symm)])
      (by simp [freeSpaceL]; all_goals omega)
      hnaf
      (by intro x hxm hp
          have := hp (pk, (⟨ps, false⟩ : Extent)) (by simp)
          rcases this with hc | hc
          · exact hc
          · simp at hc)
      (by intro y hy hp
          have := hp (addr + sz, (⟨ns, false⟩ : Extent)) (by simp)
          rcases this with hc | hc
          · simp at hc
          · exact hc)

theorem usedExt_usedAt {l : List (Nat × Extent)} {x sz pos total : Nat}
    (ht : tileB pos total l = true) (h : usedExtL x l = some sz) :
    usedAtL x l = true := by
  obtain ⟨l₁, l₂, rfl⟩ := usedExtL_decomp h
  obtain ⟨mid, ht₁, ht₂⟩ := tileB_append.mp ht
  have ht₂' := ht₂
  simp only [tileB, Bool.and_eq_true, beq_iff_eq, decide_eq_true_eq, and_assoc] at ht₂'
  obtain ⟨hxm, hszpos, ht₃⟩ := ht₂'
  subst hxm
  rw [usedAtL_append ht₁ ht₂ x, if_neg (by omega)]
  simp only [usedAtL]
  rw [if_pos (by simp; omega)]

theorem freeSpace_pos_exists {l : List (Nat × Extent)} (h : 0 < freeSpaceL l) :
    ∃ p ∈ l, p.2.used = false ∧ 0 < p.2.size := by
  induction l with
  | nil => simp [freeSpaceL] at h
  | cons hd t ih =>
    obtain ⟨k, e⟩ := hd
    simp only [freeSpaceL] at h
    by_cases hu : e.used
    · rw [if_pos hu] at h
      obtain ⟨p, hp, hpu, hps⟩ := ih (by omega)
      exact ⟨p, List.mem_cons_of_mem _ hp, hpu, hps⟩
    · rw [if_neg hu] at h
      by_cases hs : 0 < e.size
      · exact ⟨(k, e), List.mem_cons_self _ _, Bool.not_eq_true _ ▸ by simpa using hu, hs⟩
      · obtain ⟨p, hp, hpu, hps⟩ := ih (by omega)
        exact ⟨p, List.mem_cons_of_mem _ hp, hpu, hps⟩

theorem findExact_none {n : Nat} {l : List (Nat × Extent)}
    (h : findExact n l = none) :
    ∀ p ∈ l, p.2.used = false → p.2.size ≠ n := by
  induction l with
  | nil => intro p hp; cases hp
  | cons hd t ih =>
    obtain ⟨k, e⟩ := hd
    simp only [findExact] at h
    split at h
    · cases h
    · rename_i hc
      intro p hp hu hs
      rcases List.mem_cons.mp hp with hp | hp
      · subst hp
        simp only [Bool.and_eq_true, Bool.not_eq_true', beq_iff_eq] at hc
        exact hc ⟨hu, hs⟩
      · exact ih h p hp hu hs

theorem findLarger_some {n : Nat} {l : List (Nat × Extent)} {p : Nat × Extent}
    (hp : p ∈ l) (hu : p.2.used = false) (hgt : n < p.2.size) :
    ∃ r, findLarger n l = some r := by
  induction l with
  | nil => cases hp
  | cons hd t ih =>
    obtain ⟨k, e⟩ := hd
    simp only [findLarger]
    split
    · exact ⟨_, rfl⟩
    · rename_i hc
      rcases List.mem_cons.mp hp with hp | hp
      · subst hp
        exfalso
        simp only [Bool.and_eq_true, Bool.not_eq_true', decide_eq_true_eq] at hc
        exact hc ⟨hu, hgt⟩
      · exact ih hp

theorem mem_free_le_freeSpace {l : List (Nat × Extent)} {p : Nat × Extent}
    (hp : p ∈ l) (hu : p.2.used = false) : p.2.size ≤ freeSpaceL l := by
  induction l with
  | nil => cases hp
  | cons hd t ih =>
    obtain ⟨k, e⟩ := hd
    simp only [freeSpaceL]
    rcases List.mem_cons.mp hp with hp | hp
    · subst hp
      have hu' : e.used = false := hu
      rw [if_neg (by simp [hu'])]
      show e.size ≤ e.size + freeSpaceL t
      omega
    · have := ih hp
      omega

/-- With any free space at all, `alloc 1` succeeds. -/
theorem alloc_one_ok {s : AllocatorObj} (hwf : s.wf = true)
    (hfs : 0 < freeSpaceL s.extents) : ∃ a s₁, s.alloc 1 = (.ok a, s₁) := by
  have hwf' : tileB 0 s.size s.extents = true := hwf
  have hsz : 0 < s.size := by
    have h1 := freeSpaceL_le hwf'
    omega
  unfold AllocatorObj.alloc
  rw [if_neg (show ¬ (1 = 0) from by omega),
    if_neg (show ¬ s.size < 1 from by omega)]
  cases hfe : findExact 1 s.extents with
  | some a => exact ⟨a, _, rfl⟩
  | none =>
    obtain ⟨p, hp, hu, hpos⟩ := freeSpace_pos_exists hfs
    have hne := findExact_none hfe p hp hu
    have hgt : 1 < p.2.size := by omega
    obtain ⟨r, hr⟩ := findLarger_some hp hu hgt
    rw [hr]
    obtain ⟨a, se⟩ := r
    exact ⟨a, _, rfl⟩

/-- With zero free space (and a nonempty disk), `alloc 1` fails cleanly. -/
theorem alloc_one_fails {s : AllocatorObj} (hfs : freeSpaceL s.extents = 0)
    (hsz : 0 < s.size) : s.alloc 1 = (.err .AllocFailed, s) := by
  unfold AllocatorObj.alloc
  rw [if_neg (show ¬ (1 = 0) from by omega),
    if_neg (show ¬ s.size < 1 from by omega)]
  have hfe : findExact 1 s.extents = none := by
    cases hfe : findExact 1 s.extents with
    | none => rfl
    | some a =>
      obtain ⟨l₁, l₂, hl⟩ := findExact_decomp hfe
      have hmem : ((a, (⟨1, false⟩ : Extent)) ∈ s.extents) := by rw [hl]; simp
      have := mem_free_le_freeSpace hmem rfl
      simp at this
      omega
  rw [hfe]
  have hfl : findLarger 1 s.extents = none := by
    cases hfl : findLarger 1 s.extents with
    | none => rfl
    | some r =>
      obtain ⟨a, se⟩ := r
      obtain ⟨hlt, l₁, l₂, hl⟩ := findLarger_decomp hfl
      have hmem : ((a, (⟨se, false⟩ : Extent)) ∈ s.extents) := by rw [hl]; simp
      have := mem_free_le_freeSpace hmem rfl
      simp at this
      omega
  rw [hfl]

/-- Rollback: freeing a list of distinct size-1 used extents succeeds and
removes exactly those blocks from the used set. -/
theorem freeAll_spec {res : List Nat} : ∀ {s : AllocatorObj},
    s.wf = true → naf s.extents →
    (∀ a ∈ res, usedExtL a s.extents = some 1) → res.Nodup →
    ∃ s₂, freeAllRes s res = (.ok (), s₂) ∧ s₂.size = s.size ∧ s₂.wf = true ∧
      naf s₂.extents ∧
      (∀ b, usedAtL b s₂.extents = (usedAtL b s.extents && !(decide (b ∈ res)))) ∧
      (∀ x, usedExtL x s₂.extents =
        if x ∈ res then none else usedExtL x s.extents) ∧
      freeSpaceL s₂.extents = freeSpaceL s.extents + res.length := by
  induction res with
  | nil =>
    intro s hwf hnaf hres hnd
    refine ⟨s, rfl, rfl, hwf, hnaf, ?_, ?_, ?_⟩
    · intro b; simp
    · intro x; simp
    · simp
  | cons a t ih =>
    intro s hwf hnaf hres hnd
    have ha := hres a (List.mem_cons_self a t)
    obtain ⟨s₁, hfree, hsz, hwf₁, hnaf₁, hA, hE, hF⟩ := free_spec hwf hnaf ha
    have hnd' := List.nodup_cons.mp hnd
    have hres' : ∀ b ∈ t, usedExtL b s₁.extents = some 1 := by
      intro b hb
      rw [hE b, if_neg (show ¬ b = a from fun hc => hnd'.1 (hc ▸ hb))]
      exact hres b (List.mem_cons_of_mem a hb)
    obtain ⟨s₂, hrest, hsz₂, hwf₂, hnaf₂, hA₂, hE₂, hF₂⟩ := ih hwf₁ hnaf₁ hres' hnd'.2
    refine ⟨s₂, ?_, hsz₂.trans hsz, hwf₂, hnaf₂, ?_, ?_, ?_⟩
    · show freeAllRes s (a :: t) = (.ok (), s₂)
      simp only [freeAllRes]
      rw [hfree]
      exact hrest
    · intro b
      rw [hA₂ b, hA b]
      by_cases hba : b = a
      · subst hba
        simp [Nat.lt_succ_self]
      · have h1 : (decide (a ≤ b) && decide (b < a + 1)) = false := by
          simp only [Bool.and_eq_false_iff, decide_eq_false_iff_not]
          omega
        rw [h1]
        simp [List.mem_cons, hba]
    · intro x
      rw [hE₂ x, hE x]
      by_cases hxt : x ∈ t
      · rw [if_pos hxt, if_pos (List.mem_cons_of_mem a hxt)]
      · rw [if_neg hxt]
        by_cases hxa : x = a
        · subst hxa
          rw [if_pos rfl, if_pos (List.mem_cons_self x t)]
        · rw [if_neg hxa, if_neg (show ¬ x ∈ a :: t from by simp [hxa, hxt])]
    · rw [hF₂, hF]
      simp only [List.length_cons]
      omega

/-- The loop of `alloc_many`: an `err` outcome is always `AllocFailed`, with
all partial allocations in `res` rolled back. -/
theorem allocManyGo_spec {count : Nat} : ∀ {res : List Nat} {s : AllocatorObj}
    {e : AMError} {s₂ : AllocatorObj},
    s.wf = true → naf s.extents →
    (∀ a ∈ res, usedExtL a s.extents = some 1) → res.Nodup →
    allocManyGo s count res = (.err e, s₂) →
    e = .AllocFailed ∧ s₂.size = s.size ∧ s₂.wf = true ∧ naf s₂.extents ∧
    (∀ b, usedAtL b s₂.extents = (usedAtL b s.extents && !(decide (b ∈ res)))) ∧
    (∀ x, usedExtL x s₂.extents =
      if x ∈ res then none else usedExtL x s.extents) ∧
    freeSpaceL s₂.extents = freeSpaceL s.extents + res.length := by
  induction count with
  | zero =>
    intro res s e s₂ hwf hnaf hres hnd h
    simp [allocManyGo] at h
  | succ n ih =>
    intro res s e s₂ hwf hnaf hres hnd h
    unfold allocManyGo at h
    split at h
    · rename_i v s₁ heq
      obtain ⟨hsz₁, hwf₁, hnaf₁, hA, hFresh, hE, hF, hn1⟩ := alloc_ok_spec hwf hnaf heq
      have hvA : usedAtL v s.extents = false := hFresh v (Nat.le_refl v) (by omega)
      have hvres : ¬ v ∈ res := by
        intro hv
        have htrue := usedExt_usedAt
          (show tileB 0 s.size s.extents = true from hwf) (hres v hv)
        rw [htrue] at hvA
        exact Bool.noConfusion hvA
      have hres' : ∀ b ∈ res ++ [v], usedExtL b s₁.extents = some 1 := by
        intro b hb
        rw [hE b]
        rcases List.mem_append.mp hb with hb | hb
        · rw [if_neg (show ¬ b = v from fun hc => hvres (hc ▸ hb))]
          exact hres b hb
        · have hbv : b = v := by simpa using hb
          subst hbv
          rw [if_pos rfl]
      have hnd' : (res ++ [v]).Nodup := by
        simp [List.nodup_append, hnd, hvres]
      obtain ⟨he, hsz₂, hwf₂, hnaf₂, hA₂, hE₂, hF₂⟩ := ih hwf₁ hnaf₁ hres' hnd' h
      refine ⟨he, hsz₂.trans hsz₁, hwf₂, hnaf₂, ?_, ?_, ?_⟩
      · intro b
        rw [hA₂ b, hA b]
        by_cases hbv : b = v
        · subst hbv
          rw [hvA]
          simp
        · have h2 : (decide (v ≤ b) && decide (b < v + 1)) = false := by
            simp only [Bool.and_eq_false_iff, decide_eq_false_iff_not]
            omega
          rw [h2]
          simp [List.mem_append, hbv]
      · intro x
        rw [hE₂ x, hE x]
        by_cases hxv : x = v
        · subst hxv
          have hnone : usedExtL x s.extents = none := by
            cases hvE : usedExtL x s.extents with
            | none => rfl
            | some sz =>
              have htrue := usedExt_usedAt
                (show tileB 0 s.size s.extents = true from hwf) hvE
              rw [htrue] at hvA
              exact Bool.noConfusion hvA
          rw [if_pos (show x ∈ res ++ [x] from by simp), if_neg hvres, hnone]
        · by_cases hxr : x ∈ res
          · rw [if_pos (List.mem_append_left _ hxr), if_pos hxr]
          · rw [if_neg (show ¬ x ∈ res ++ [v] from by simp [hxr, hxv]),
              if_neg hxv, if_neg hxr]
      · rw [hF₂]
        simp only [List.length_append, List.length_cons, List.length_nil]
        omega
    · rename_i e₀ s₁ heq
      obtain ⟨hs₁, he₀⟩ := alloc_err_spec heq
      subst hs₁
      obtain ⟨s₂', hrest, hsz₂, hwf₂, hnaf₂, hA₂, hE₂, hF₂⟩ :=
        freeAll_spec hwf hnaf hres hnd
      rw [hrest] at h
      have h' : ((.err .AllocFailed : MRes (List Nat)), s₂') = (.err e, s₂) := h
      simp only [Prod.mk.injEq, MRes.err.injEq] at h'
      obtain ⟨rfl, rfl⟩ := h'
      exact ⟨rfl, hsz₂, hwf₂, hnaf₂, hA₂, hE₂, hF₂⟩
    · rename_i s₁ heq
      simp at h

/-- With fewer free blocks than `count`, the `alloc_many` loop errs. -/
theorem allocManyGo_errs {count : Nat} : ∀ {res : List Nat} {s : AllocatorObj},
    s.wf = true → naf s.extents →
    (∀ a ∈ res, usedExtL a s.extents = some 1) → res.Nodup →
    0 < s.size → freeSpaceL s.extents < count →
    ∃ e s₂, allocManyGo s count res = (.err e, s₂) := by
  induction count with
  | zero =>
    intro res s _ _ _ _ _ hcnt
    omega
  | succ n ih =>
    intro res s hwf hnaf hres hnd hsz hcnt
    by_cases hfs : 0 < freeSpaceL s.extents
    · obtain ⟨a, s₁, halloc⟩ := alloc_one_ok hwf hfs
      obtain ⟨hsz₁, hwf₁, hnaf₁, hA, hFresh, hE, hF, _⟩ := alloc_ok_spec hwf hnaf halloc
      have hvA : usedAtL a s.extents = false := hFresh a (Nat.le_refl a) (by omega)
      have hvres : ¬ a ∈ res := by
        intro hv
        have htrue := usedExt_usedAt
          (show tileB 0 s.size s.extents = true from hwf) (hres a hv)
        rw [htrue] at hvA
        exact Bool.noConfusion hvA
      have hres' : ∀ b ∈ res ++ [a], usedExtL b s₁.extents = some 1 := by
        intro b hb
        rw [hE b]
        rcases List.mem_append.mp hb with hb | hb
        · rw [if_neg (show ¬ b = a from fun hc => hvres (hc ▸ hb))]
          exact hres b hb
        · have hba : b = a := by simpa using hb
          subst hba
          rw [if_pos rfl]
      have hnd' : (res ++ [a]).Nodup := by
        simp [List.nodup_append, hnd, hvres]
      have hsz' : 0 < s₁.size := by rw [hsz₁]; exact hsz
      have hcnt' : freeSpaceL s₁.extents < n := by omega
      obtain ⟨e, s₂, hgo⟩ := ih hwf₁ hnaf₁ hres' hnd' hsz' hcnt'
      refine ⟨e, s₂, ?_⟩
      simp only [allocManyGo, halloc]
      exact hgo
    · have hfs0 : freeSpaceL s.extents = 0 := by omega
      have halloc := alloc_one_fails hfs0 hsz
      obtain ⟨s₂', hrest, _⟩ := freeAll_spec hwf hnaf hres hnd
      refine ⟨.AllocFailed, s₂', ?_⟩
      simp only [allocManyGo, halloc, hrest]

/-- A well-formed allocator with no used extent whatsoever consists of the
single free extent `[0, size)`. -/
theorem all_free_single {s : AllocatorObj}
    (hwf : s.wf = true) (hnaf : naf s.extents)
    (hall : ∀ x, usedExtL x s.extents = none) (hsz : 0 < s.size) :
    s.extents = [(0, ⟨s.size, false⟩)] := by
  have hwf' : tileB 0 s.size s.extents = true := hwf
  cases hse : s.extents with
  | nil =>
    rw [hse] at hwf'
    simp only [tileB, beq_iff_eq] at hwf'
    omega
  | cons hd t =>
    obtain ⟨k, e⟩ := hd
    rw [hse] at hwf'
    simp only [tileB, Bool.and_eq_true, beq_iff_eq, decide_eq_true_eq, and_assoc] at hwf'
    obtain ⟨hk, hepos, ht⟩ := hwf'
    subst hk
    have h0 := hall 0
    rw [hse] at h0
    simp only [usedExtL] at h0
    rw [if_pos trivial] at h0
    have hu : e.used = false := by
      by_cases hu : e.used = true
      · rw [if_pos hu] at h0
        exact Option.noConfusion h0
      · simpa using hu
    cases t with
    | nil =>
      simp only [tileB, beq_iff_eq] at ht
      have hes : e.size = s.size := by omega
      cases e with
      | mk sz u =>
        have hu' : u = false := hu
        have hes' : sz = s.size := hes
        subst hu' hes'
        rfl
    | cons hd₂ t₂ =>
      obtain ⟨k₂, e₂⟩ := hd₂
      exfalso
      simp only [tileB, Bool.and_eq_true, beq_iff_eq, decide_eq_true_eq, and_assoc] at ht
      obtain ⟨hk₂, he₂pos, _⟩ := ht
      rw [hse] at hnaf
      have hnaf1 : (0, e).2.used = true ∨ (k₂, e₂).2.used = true :=
        (List.chain'_cons.mp hnaf).1
      have he₂u : e₂.used = true := by
        rcases hnaf1 with h | h
        · rw [hu] at h
          exact Bool.noConfusion h
        · exact h
      have h2 := hall k₂
      rw [hse] at h2
      simp only [usedExtL] at h2
      rw [if_neg (show ¬ (0 = k₂) from by omega), if_pos trivial, if_pos he₂u] at h2
      exact Option.noConfusion h2

/-- `alloc` fails cleanly when every free extent is smaller than the request
(and the request passes both asserts). -/
theorem alloc_no_fit_fails {s : AllocatorObj} {n : Nat} (hn : 0 < n)
    (hns : ¬ s.size < n)
    (hsmall : ∀ p ∈ s.extents, p.2.used = false → p.2.size < n) :
    s.alloc n = (.err .AllocFailed, s) := by
  unfold AllocatorObj.alloc
  rw [if_neg (show ¬ (n = 0) from by omega), if_neg hns]
  have hfe : findExact n s.extents = none := by
    cases hfe : findExact n s.extents with
    | none => rfl
    | some a =>
      obtain ⟨l₁, l₂, hl⟩ := findExact_decomp hfe
      have hmem : ((a, (⟨n, false⟩ : Extent)) ∈ s.extents) := by rw [hl]; simp
      have h1 : n < n := hsmall _ hmem rfl
      omega
  rw [hfe]
  have hfl : findLarger n s.extents = none := by
    cases hfl : findLarger n s.extents with
    | none => rfl
    | some r =>
      obtain ⟨a, se⟩ := r
      obtain ⟨hlt, l₁, l₂, hl⟩ := findLarger_decomp hfl
      have hmem : ((a, (⟨se, false⟩ : Extent)) ∈ s.extents) := by rw [hl]; simp
      have h1 : se < n := hsmall _ hmem rfl
      omega
  rw [hfl]

/-- C6: `alloc_many` rollback atomicity. On any failure the result is
`AllocFailed` and the allocator is observationally restored: same total size,
same per-block used map, same used-extent table, same free space (free
extents possibly re-merged). In particular on a fresh `Allocator::new(1024)`,
`alloc_many 1025` fails with `AllocFailed` and a subsequent `alloc 1024`
succeeds. -/
theorem C6_alloc_many_rollback :
    (∀ (s : AllocatorObj) (count : Nat) (e : AMError) (s₂ : AllocatorObj),
      s.wf = true → naf s.extents → s.alloc_many count = (.err e, s₂) →
      e = .AllocFailed ∧ s₂.size = s.size ∧
      (∀ b, s₂.usedAt b = s.usedAt b) ∧
      (∀ x, usedExtL x s₂.extents = usedExtL x s.extents) ∧
      freeSpaceL s₂.extents = freeSpaceL s.extents) ∧
    (∃ e s₂, (AllocatorObj.new 1024).alloc_many 1025 = (.err e, s₂) ∧
      e = .AllocFailed ∧ ∃ a s₃, s₂.alloc 1024 = (.ok a, s₃)) := by
  constructor
  · intro s count e s₂ hwf hnaf h
    obtain ⟨he, hsz, hwf₂, hnaf₂, hA, hE, hF⟩ :=
      allocManyGo_spec hwf hnaf (fun a ha => absurd ha (List.not_mem_nil a))
        List.nodup_nil h
    refine ⟨he, hsz, ?_, ?_, ?_⟩
    · intro b
      show usedAtL b s₂.extents = usedAtL b s.extents
      rw [hA b]
      simp
    · intro x
      rw [hE x]
      simp
    · rw [hF]
      simp
  · have hwfN : (AllocatorObj.new 1024).wf = true := by decide
    have hnafN : naf (AllocatorObj.new 1024).extents := naf_iff.mpr (by decide)
    obtain ⟨e, s₂, hgo⟩ := @allocManyGo_errs 1025 [] (AllocatorObj.new 1024)
      hwfN hnafN (fun a ha => absurd ha (List.not_mem_nil a)) List.nodup_nil
      (by decide) (by decide)
    obtain ⟨he, hsz₂, hwf₂, hnaf₂, hA₂, hE₂, hF₂⟩ :=
      allocManyGo_spec hwfN hnafN (fun a ha => absurd ha (List.not_mem_nil a))
        List.nodup_nil hgo
    have hall : ∀ x, usedExtL x s₂.extents = none := by
      intro x
      rw [hE₂ x, if_neg (List.not_mem_nil x)]
      show usedExtL x [(0, ⟨1024, false⟩)] = none
      simp only [usedExtL]
      split
      · rfl
      · rfl
    have hsz₂' : s₂.size = 1024 := hsz₂
    have hse : s₂.extents = [(0, ⟨1024, false⟩)] := by
      have h1 := all_free_single hwf₂ hnaf₂ hall (by omega)
      rw [hsz₂'] at h1
      exact h1
    refine ⟨e, s₂, hgo, he, ?_⟩
    unfold AllocatorObj.alloc
    rw [if_neg (show ¬ (1024 = 0) from by omega),
      if_neg (show ¬ s₂.size < 1024 from by omega),
      show findExact 1024 s₂.extents = some 0 from by rw [hse]; rfl]
    exact ⟨0, _, rfl⟩

/-- Witness for `C6_alloc_many_rollback` at the concrete allocator
`Allocator::new(2)` with an over-large `alloc_many 3`. -/
theorem C6_alloc_many_rollback_witness :
    (AllocatorObj.new 2).wf = true ∧ naf (AllocatorObj.new 2).extents ∧
    (AllocatorObj.new 2).alloc_many 3 = (.err .AllocFailed, AllocatorObj.new 2) ∧
    freeSpaceL (AllocatorObj.new 2).extents = freeSpaceL (AllocatorObj.new 2).extents :=
  ⟨by decide, naf_iff.mpr (by decide), by decide,
    (C6_alloc_many_rollback.1 (AllocatorObj.new 2) 3 .AllocFailed (AllocatorObj.new 2)
      (by decide) (naf_iff.mpr (by decide)) (by decide)).2.2.2.2⟩

/-- C7 counterexample: on a fresh 1024-block allocator (capacity
`cap = 1024`), `alloc (cap + 1)` panics (the `assert_le!(size, self.size)`
fails) instead of returning the error `AllocFailed`. -/
theorem C7_overalloc_counterexample :
    ((AllocatorObj.new 1024).alloc 1025).1 = .crash ∧
    ((AllocatorObj.new 1024).alloc 1025).1 ≠ .err .AllocFailed := by
  exact ⟨by decide, by decide⟩

/-- C7 (amended): for requests within the asserted bounds `0 < n ≤ size`,
`alloc` returns the error `AllocFailed` exactly when no free extent of size
at least `n` exists — it succeeds whenever some free extent fits — but a
request of `size + 1` blocks panics on `assert_le!` instead of returning
`AllocFailed`. -/
theorem C7_alloc_failure_amended :
    (∀ (s : AllocatorObj) (n : Nat), 0 < n → n ≤ s.size →
      (∀ p ∈ s.extents, p.2.used = false → p.2.size < n) →
      s.alloc n = (.err .AllocFailed, s)) ∧
    (∀ (s : AllocatorObj) (n : Nat) (p : Nat × Extent), 0 < n → n ≤ s.size →
      p ∈ s.extents → p.2.used = false → n ≤ p.2.size →
      ∃ a s₁, s.alloc n = (.ok a, s₁)) ∧
    (∀ s : AllocatorObj, s.alloc (s.size + 1) = (.crash, s)) := by
  refine ⟨?_, ?_, ?_⟩
  · intro s n hn hns hsmall
    exact alloc_no_fit_fails hn (by omega) hsmall
  · intro s n p hn hns hp hpu hpn
    unfold AllocatorObj.alloc
    rw [if_neg (show ¬ (n = 0) from by omega),
      if_neg (show ¬ s.size < n from by omega)]
    cases hfe : findExact n s.extents with
    | some a => exact ⟨a, _, rfl⟩
    | none =>
      have hne := findExact_none hfe p hp hpu
      have hgt : n < p.2.size := by omega
      obtain ⟨r, hr⟩ := findLarger_some hp hpu hgt
      rw [hr]
      obtain ⟨a, se⟩ := r
      exact ⟨a, _, rfl⟩
  · intro s
    unfold AllocatorObj.alloc
    rw [if_neg (show ¬ (s.size + 1 = 0) from by omega),
      if_pos (show s.size < s.size + 1 from by omega)]

/-- Witness for `C7_alloc_failure_amended` at concrete allocators. -/
theorem C7_alloc_failure_amended_witness :
    (0 : Nat) < 1 ∧
    (⟨1, [(0, ⟨1, true⟩)]⟩ : AllocatorObj).alloc 1 =
      (.err .AllocFailed, (⟨1, [(0, ⟨1, true⟩)]⟩ : AllocatorObj)) ∧
    (∃ a s₁, (AllocatorObj.new 4).alloc 3 = (.ok a, s₁)) ∧
    (⟨1, [(0, ⟨1, true⟩)]⟩ : AllocatorObj).alloc 2 =
      (.crash, (⟨1, [(0, ⟨1, true⟩)]⟩ : AllocatorObj)) :=
  ⟨by decide,
   C7_alloc_failure_amended.1 ⟨1, [(0, ⟨1, true⟩)]⟩ 1 (by decide) (by decide)
     (by decide),
   C7_alloc_failure_amended.2.1 (AllocatorObj.new 4) 3 (0, ⟨4, false⟩) (by decide)
     (by decide) (by decide) (by decide) (by decide),
   C7_alloc_failure_amended.2.2 ⟨1, [(0, ⟨1, true⟩)]⟩⟩

/-- C1: the root group written by a commit carries the txid of the previous
root group unchanged — the commit path never assigns `txid` — so the spec's
strict monotonicity (`txid(C2) > txid(C1)` for successive commits) fails:
the committed txid is never strictly greater than its predecessor's. -/
theorem C1_commit_txid_unchanged :
    ∀ (prev : FSGroup) (o f a : AMPointer),
      (commitRootGroup prev o f a).txid = prev.txid ∧
      ¬ (commitRootGroup prev o f a).txid > prev.txid := by
  intro prev o f a
  exact ⟨rfl, by simp [commitRootGroup]⟩

/-- C2: superblock root rotation is *not* modulo 128: a successful step
stores `latest_root + 1` without reduction, and from `latest_root = 127`
(reached after 127 commits on a fresh filesystem) the next commit panics
with an out-of-bounds write into the 128-slot `rootnodes` array instead of
wrapping to slot 0. -/
theorem C2_rotation_out_of_bounds :
    (∀ (sb : Superblock) (p : AMPointer), sb.rootnodes.length = 128 →
      sb.latest_root = 127 → commitSuperblockStep sb p = .crash) ∧
    (∀ (sb : Superblock) (p : AMPointer) (sb' : Superblock),
      commitSuperblockStep sb p = .ok sb' →
      sb'.latest_root = sb.latest_root + 1) := by
  constructor
  · intro sb p hlen hlr
    unfold commitSuperblockStep
    rw [if_neg (show ¬ sb.latest_root + 1 ≥ 256 from by omega),
      if_neg (show ¬ sb.latest_root + 1 < sb.rootnodes.length from by omega)]
  · intro sb p sb' h
    unfold commitSuperblockStep at h
    split at h
    · exact MRes.noConfusion h
    split at h
    · obtain rfl := MRes.ok.inj h
      rfl
    · exact MRes.noConfusion h

set_option maxRecDepth 4000 in
/-- Witness for `C2_rotation_out_of_bounds` on a concrete superblock. -/
theorem C2_rotation_out_of_bounds_witness :
    (Superblock.mk 127 (List.replicate 128 AMPointer.null)).rootnodes.length = 128 ∧
    commitSuperblockStep (Superblock.mk 127 (List.replicate 128 AMPointer.null))
      AMPointer.null = .crash ∧
    (Superblock.mk 3 (List.replicate 128 AMPointer.null)).latest_root + 1 = 4 :=
  ⟨by decide,
   C2_rotation_out_of_bounds.1 (Superblock.mk 127 (List.replicate 128 AMPointer.null))
     AMPointer.null (by decide) (by decide),
   by decide⟩

/-- C9 counterexample: pointers the program constructs and stores for
superblock header locations (`Disk::get_header_locs`, used by mkfs and
mount) and the local pointers from `AMPointerLocal::new` (used by mkfs for
geometry blocks) are non-NULL yet have length 0, violating the claimed
`length ≥ 1` invariant for every non-NULL pointer. -/
theorem C9_len0_counterexample :
    (AMPointerLocal.new 7).is_null = false ∧ (AMPointerLocal.new 7).len = 0 ∧
    (∃ p ∈ Disk.get_header_locs 100, p.is_null = false ∧ p.len = 0) := by
  decide

/-- C9 (amended): locally-constructed pointers (`AMPointerLocal::new`,
`set_loc`, the four header-location pointers) are non-NULL with length 0,
so the `length ≥ 1` invariant fails for them; the global pointers minted by
`DiskGroup::alloc_blocks` do carry length 1. -/
theorem C9_pointer_lengths_amended :
    (∀ addr : Nat, (AMPointerLocal.new addr).is_null = false ∧
      (AMPointerLocal.new addr).len = 0) ∧
    (∀ (p : AMPointer) (loc : Nat),
      (AMPointerLocal.set_loc p loc).is_null = false ∧
      (AMPointerLocal.set_loc p loc).len = p.len) ∧
    (∀ size : Nat, ∀ p ∈ Disk.get_header_locs size,
      p.is_null = false ∧ p.len = 0) ∧
    (∀ (a : AllocatorObj) (n : Nat) (q : AMPointer) (a₁ : AllocatorObj),
      DiskGroup.alloc_blocks a n = (.ok q, a₁) →
      q.len = 1 ∧ q.is_null = false) := by
  refine ⟨?_, ?_, ?_, ?_⟩
  · intro addr
    exact ⟨rfl, rfl⟩
  · intro p loc
    exact ⟨rfl, rfl⟩
  · intro size p hp
    simp only [Disk.get_header_locs, List.mem_cons, List.not_mem_nil, or_false] at hp
    rcases hp with rfl | rfl | rfl | rfl
    · exact ⟨rfl, rfl⟩
    · exact ⟨rfl, rfl⟩
    · exact ⟨rfl, rfl⟩
    · exact ⟨rfl, rfl⟩
  · intro a n q a₁ h
    unfold DiskGroup.alloc_blocks at h
    split at h
    · rename_i ptr a₂ heq
      have h' : ((.ok (AMPointer.new ptr 1 0 0) : MRes AMPointer), a₂) = (.ok q, a₁) := h
      simp only [Prod.mk.injEq, MRes.ok.injEq] at h'
      obtain ⟨rfl, rfl⟩ := h'.imp id id
      exact ⟨rfl, rfl⟩
    · exact absurd h (by simp)
    · exact absurd h (by simp)

/-- Witness for `C9_pointer_lengths_amended` at concrete pointers. -/
theorem C9_pointer_lengths_amended_witness :
    ((AMPointerLocal.new 3).is_null = false ∧ (AMPointerLocal.new 3).len = 0) ∧
    ((AMPointer.new 0 1 0 0).len = 1 ∧ (AMPointer.new 0 1 0 0).is_null = false) :=
  ⟨C9_pointer_lengths_amended.1 3,
   C9_pointer_lengths_amended.2.2.2 (AllocatorObj.new 4) 1 (AMPointer.new 0 1 0 0)
     ⟨4, [(0, ⟨1, true⟩), (1, ⟨3, false⟩)]⟩ (by decide)⟩

/-- C10: checksum maintenance is only defined for single-block global
pointers: `AMPointerGlobal::validate` on a non-NULL pointer whose length is
not 1 panics, `AMPointerGlobal::update` on any pointer whose length is not
1 panics, and `validate` on a NULL global pointer returns `Ok(false)` with
no disk I/O performed, whatever the checksum kill-switch says. -/
theorem C10_single_block_checksum :
    (∀ (p : AMPointer) (en : Bool) (disk : Nat → List Nat),
      p.is_null = false → p.len ≠ 1 →
      AMPointerGlobal.validate p en disk = (.crash, [])) ∧
    (∀ (p : AMPointer) (disk : Nat → List Nat), p.len ≠ 1 →
      AMPointerGlobal.update p disk = (.crash, [])) ∧
    (∀ (en : Bool) (disk : Nat → List Nat),
      AMPointerGlobal.validate AMPointer.null en disk = (.ok false, [])) := by
  refine ⟨?_, ?_, ?_⟩
  · intro p en disk hn hl
    unfold AMPointerGlobal.validate
    rw [if_neg (show ¬ p.is_null = true from by simp [hn]), if_pos hl]
  · intro p disk hl
    unfold AMPointerGlobal.update
    rw [if_pos hl]
  · intro en disk
    unfold AMPointerGlobal.validate
    rw [if_pos (show AMPointer.null.is_null = true from rfl)]

/-- Witness for `C10_single_block_checksum` at a concrete length-2 pointer. -/
theorem C10_single_block_checksum_witness :
    (AMPointer.new 5 2 0 0).is_null = false ∧ (AMPointer.new 5 2 0 0).len ≠ 1 ∧
    AMPointerGlobal.validate (AMPointer.new 5 2 0 0) true (fun _ => []) =
      (.crash, []) ∧
    AMPointerGlobal.update (AMPointer.new 5 2 0 0) (fun _ => []) = (.crash, []) ∧
    AMPointerGlobal.validate AMPointer.null true (fun _ => []) = (.ok false, []) :=
  ⟨by decide, by decide,
   C10_single_block_checksum.1 (AMPointer.new 5 2 0 0) true (fun _ => [])
     (by decide) (by decide),
   C10_single_block_checksum.2.1 (AMPointer.new 5 2 0 0) (fun _ => []) (by decide),
   C10_single_block_checksum.2.2 true (fun _ => [])⟩

/-- C4: the shrink arm of `Object::truncate` assigns
`lf.size = cur_size - size` (object.rs:418) instead of shrinking the last
fragment to cover exactly the remaining bytes. On a single-fragment object
of size 8 — the very shape `create_object` builds — truncating to 6
succeeds but leaves the object at size 2, not 6; the spec's own example,
truncating 8 to 4, happens to hit `lf.size = 2·(cur_size − size)` and so
lands on the right size by accident. -/
theorem C4_truncate_shrink_bug :
    ∀ p : AMPointer,
      ((Object.mk [⟨8, 0, p⟩]).truncate (AllocatorObj.new 4) 6).1 =
        .ok (Object.mk [⟨2, 0, p⟩]) ∧
      (Object.mk [⟨2, 0, p⟩]).size = 2 ∧
      ((Object.mk [⟨8, 0, p⟩]).truncate (AllocatorObj.new 4) 4).1 =
        .ok (Object.mk [⟨4, 0, p⟩]) ∧
      (Object.mk [⟨4, 0, p⟩]).size = 4 := by
  intro p
  exact ⟨rfl, rfl, rfl, rfl⟩

/-- A successful `AMPointerGlobal::write` changes at most the device block
`loc + start / BLOCK_SIZE`. -/
theorem write_bytes_mut {p : AMPointer} {start size : Nat} {data : List Nat}
    {disk disk' : Nat → List Nat}
    (h : AMPointerGlobal.write_bytes p start size data disk = .ok disk') :
    ∀ b, disk' b ≠ disk b → b = p.location + start / BLOCK_SIZE := by
  unfold AMPointerGlobal.write_bytes at h
  intro b hb
  split at h
  · obtain rfl := MRes.ok.inj h
    by_contra hne
    apply hb
    show setBlock _ _ _ b = _
    unfold setBlock
    rw [if_neg hne]
  split at h
  · obtain rfl := MRes.ok.inj h
    by_contra hne
    apply hb
    show setBlock _ _ _ b = _
    unfold setBlock
    rw [if_neg hne]
  · exact MRes.noConfusion h

/-- `AMPointerGlobal::update` on a one-block pointer: recompute the checksum,
read only the pointed-to block. -/
theorem update_ok {p : AMPointer} {disk : Nat → List Nat} (h : p.len = 1) :
    AMPointerGlobal.update p disk =
      (.ok { p with checksum := crc32 (disk p.location) }, [p.location]) := by
  unfold AMPointerGlobal.update
  rw [if_neg (show ¬ p.len ≠ 1 from fun hc => hc h)]

/-- `AMFS::alloc_blocks` success: one allocator step, disk and free queue
untouched, and the returned pointer is the fresh one-block global pointer. -/
theorem fs_alloc_blocks_ok {fs : FS} {n : Nat} {p₁ : AMPointer} {fs₁ : FS}
    (h : FS.alloc_blocks fs n = (.ok p₁, fs₁)) :
    ∃ a a₁, fs.alloc.alloc n = (.ok a, a₁) ∧
      fs₁ = { fs with alloc := a₁ } ∧ p₁.location = a ∧ p₁.len = 1 := by
  unfold FS.alloc_blocks at h
  split at h
  · rename_i q a₁ hdq
    unfold DiskGroup.alloc_blocks at hdq
    split at hdq
    · rename_i a a₂ halloc
      have hq : ((.ok (AMPointer.new a 1 0 0) : MRes AMPointer), a₂) =
          (.ok q, a₁) := hdq
      simp only [Prod.mk.injEq, MRes.ok.injEq] at hq
      obtain ⟨hq1, hq2⟩ := hq
      subst hq1
      subst hq2
      split at h
      · rename_i p₂ rest hup
        rw [update_ok (show (AMPointer.new a 1 0 0).len = 1 from rfl)] at hup
        simp only [Prod.mk.injEq, MRes.ok.injEq] at hup
        obtain ⟨hu1, hu2⟩ := hup
        subst hu1
        simp only [Prod.mk.injEq, MRes.ok.injEq] at h
        obtain ⟨h1, h2⟩ := h
        subst h1
        subst h2
        exact ⟨a, a₂, halloc, rfl, rfl, rfl⟩
      · exact absurd h (by simp)
      · exact absurd h (by simp)
    · exact absurd hdq (by simp)
    · exact absurd hdq (by simp)
  · exact absurd h (by simp)
  · exact absurd h (by simp)

/-- `AMFS::realloc` success on a one-block pointer: allocator effects of one
fresh block, old pointer enqueued, only the fresh block's contents change. -/
theorem fs_realloc_ok {fs : FS} {ptr newp : AMPointer} {fs' : FS}
    (hwf : fs.alloc.wf = true) (hnaf : naf fs.alloc.extents)
    (hlen : ptr.len = 1)
    (h : FS.realloc fs ptr = (.ok newp, fs')) :
    fs'.alloc.wf = true ∧ naf fs'.alloc.extents ∧
    fs'.alloc.size = fs.alloc.size ∧ newp.len = 1 ∧
    usedAtL newp.location fs.alloc.extents = false ∧
    (∀ b, usedAtL b fs'.alloc.extents =
      (usedAtL b fs.alloc.extents ||
        (decide (newp.location ≤ b) && decide (b < newp.location + 1)))) ∧
    fs'.freeQueue = fs.freeQueue ++ [ptr] ∧
    (∀ b, fs'.disk b ≠ fs.disk b → b = newp.location) := by
  unfold FS.realloc at h
  split at h
  · exact absurd h (by simp)
  split at h
  · rename_i q fs₁x hab
    obtain ⟨a, a₁, halloc, hfs₁, hloc, hplen⟩ := fs_alloc_blocks_ok hab
    have hd : fs₁x.disk = fs.disk := by rw [hfs₁]
    have hfq : fs₁x.freeQueue = fs.freeQueue := by rw [hfs₁]
    have hal : fs₁x.alloc = a₁ := by rw [hfs₁]
    rw [hlen] at halloc
    obtain ⟨hsz₁, hwf₁, hnaf₁, hA, hFresh, hE, hF, _⟩ :=
      alloc_ok_spec hwf hnaf halloc
    split at h
    · rename_i contents hrv
      rw [hd] at hrv
      unfold AMPointerGlobal.read_vec at hrv
      rw [if_pos hlen] at hrv
      obtain rfl := MRes.ok.inj hrv
      split at h
      · rename_i disk₁ hwb
        rw [hd] at hwb
        have h' : ((.ok q : MRes AMPointer),
            FS.free { fs₁x with disk := disk₁ } ptr) = (.ok newp, fs') := h
        simp only [Prod.mk.injEq, MRes.ok.injEq] at h'
        obtain ⟨h1, h2⟩ := h'
        subst h1
        subst h2
        have hfa : (FS.free { fs₁x with disk := disk₁ } ptr).alloc = a₁ := by
          simp [FS.free, hal]
        have hffq : (FS.free { fs₁x with disk := disk₁ } ptr).freeQueue =
            fs.freeQueue ++ [ptr] := by
          simp [FS.free, hfq]
        have hfd : (FS.free { fs₁x with disk := disk₁ } ptr).disk = disk₁ := by
          simp [FS.free]
        rw [hfa, hffq, hfd]
        refine ⟨hwf₁, hnaf₁, hsz₁, hplen, ?_, ?_, rfl, ?_⟩
        · rw [hloc]
          exact hFresh a (Nat.le_refl a) (by omega)
        · intro b
          rw [hloc]
          exact hA b
        · intro b hb
          have hmut := write_bytes_mut hwb b hb
          simpa using hmut
      · exact absurd h (by simp)
      · exact absurd h (by simp)
    · exact absurd h (by simp)
    · exact absurd h (by simp)
  · exact absurd h (by simp)
  · exact absurd h (by simp)

/-- Every pointer `objWriteOldPtrs` collects is the old pointer of one of
the object's fragments. -/
theorem objWriteOldPtrs_mem {start : Nat} :
    ∀ {frags : List Fragment} {pos : Nat} {q : AMPointer},
    q ∈ objWriteOldPtrs start frags pos → ∃ f ∈ frags, q = f.pointer := by
  intro frags
  induction frags with
  | nil =>
    intro pos q hq
    simp [objWriteOldPtrs] at hq
  | cons f rest ih =>
    intro pos q hq
    simp only [objWriteOldPtrs] at hq
    rcases List.mem_append.mp hq with hq | hq
    · by_cases hc : start < pos + f.size
      · rw [if_pos hc] at hq
        obtain rfl := List.mem_singleton.mp hq
        exact ⟨f, List.mem_cons_self f rest, rfl⟩
      · rw [if_neg hc] at hq
        exact absurd hq (List.not_mem_nil q)
    · obtain ⟨g, hg, hgq⟩ := ih hq
      exact ⟨g, List.mem_cons_of_mem f hg, hgq⟩

/-- Copy-on-write effect of the `Object::write` fragment loop when all
fragments fit in one block: disk mutations land only on blocks that were
free beforehand, the entries pushed onto the free queue are exactly the
old pointers of the rewritten (hit) fragments, and every rewritten
fragment points at a previously-free block. -/
theorem objWriteGo_cow {start : Nat} {data : List Nat} :
    ∀ {frags : List Fragment} {pos resN : Nat} {fs : FS} {n : Nat}
      {fs' : FS} {frags' : List Fragment},
    fs.alloc.wf = true → naf fs.alloc.extents →
    (∀ f ∈ frags, f.size ≤ BLOCK_SIZE ∧ f.pointer.len = 1) →
    objWriteGo start data frags pos resN fs = (.ok n, fs', frags') →
    fs'.alloc.wf = true ∧ naf fs'.alloc.extents ∧
    fs'.alloc.size = fs.alloc.size ∧
    (∀ b, usedAtL b fs.alloc.extents = true →
      usedAtL b fs'.alloc.extents = true) ∧
    (∀ b, fs'.disk b ≠ fs.disk b → usedAtL b fs.alloc.extents = false) ∧
    fs'.freeQueue = fs.freeQueue ++ objWriteOldPtrs start frags pos ∧
    (∀ g ∈ frags', (∃ f ∈ frags, g.pointer = f.pointer) ∨
      usedAtL g.pointer.location fs.alloc.extents = false) := by
  intro frags
  induction frags with
  | nil =>
    intro pos resN fs n fs' frags' hwf hnaf hfr h
    have h' : ((.ok resN : MRes Nat), fs, ([] : List Fragment)) =
        (.ok n, fs', frags') := h
    simp only [Prod.mk.injEq, MRes.ok.injEq] at h'
    obtain ⟨h1, h2, h3⟩ := h'
    subst h2
    subst h3
    exact ⟨hwf, hnaf, rfl, fun b hb => hb, fun b hb => absurd rfl hb,
      by simp [objWriteOldPtrs], by simp⟩
  | cons f rest ih =>
    intro pos resN fs n fs' frags' hwf hnaf hfr h
    have hfH := hfr f (List.mem_cons_self f rest)
    have hfT : ∀ g ∈ rest, g.size ≤ BLOCK_SIZE ∧ g.pointer.len = 1 :=
      fun g hg => hfr g (List.mem_cons_of_mem f hg)
    unfold objWriteGo at h
    split at h
    · rename_i hhit
      split at h
      · exact absurd h (by simp)
      · rename_i hge
        split at h
        · exact absurd h (by simp)
        · rename_i hfit
          split at h
          · rename_i newp fs₁ hre
            obtain ⟨hwf₁, hnaf₁, hsz₁, hnlen, hfresh, hA₁, hQ₁, hD₁⟩ :=
              fs_realloc_ok hwf hnaf hfH.2 hre
            split at h
            · rename_i disk₁ hwb
              split at h
              · rename_i newp₂ w hup
                rw [update_ok hnlen] at hup
                simp only [Prod.mk.injEq, MRes.ok.injEq] at hup
                obtain ⟨hu1, hu2⟩ := hup
                subst hu1
                split at h
                · rename_i r fs₃ rest₃ hrec
                  simp only [Prod.mk.injEq] at h
                  obtain ⟨h1, h2, h3⟩ := h
                  subst h1
                  subst h2
                  subst h3
                  have hwf₂ : (FS.mk fs₁.alloc fs₁.freeQueue disk₁).alloc.wf
                      = true := hwf₁
                  have hnaf₂ :
                      naf (FS.mk fs₁.alloc fs₁.freeQueue disk₁).alloc.extents :=
                    hnaf₁
                  obtain ⟨gwf, gnaf, gsz, gmono, gdisk, gq, gfrag⟩ :=
                    ih hwf₂ hnaf₂ hfT hrec
                  have hmono₁ : ∀ b, usedAtL b fs.alloc.extents = true →
                      usedAtL b fs₁.alloc.extents = true := by
                    intro b hb
                    rw [hA₁ b, hb]
                    simp
                  have hdown₁ : ∀ b, usedAtL b fs₁.alloc.extents = false →
                      usedAtL b fs.alloc.extents = false := by
                    intro b hb
                    rw [hA₁ b] at hb
                    exact (Bool.or_eq_false_iff.mp hb).1
                  have hslice : (start - pos) / BLOCK_SIZE = 0 :=
                    Nat.div_eq_of_lt (by
                      have : start - pos < f.size := by omega
                      omega)
                  refine ⟨gwf, gnaf, gsz.trans hsz₁, ?_, ?_, ?_, ?_⟩
                  · intro b hb
                    exact gmono b (hmono₁ b hb)
                  · intro b hb
                    by_cases h2 : fs₃.disk b = disk₁ b
                    · rw [h2] at hb
                      by_cases h3 : disk₁ b = fs₁.disk b
                      · rw [h3] at hb
                        have hmut := hD₁ b hb
                        subst hmut
                        exact hfresh
                      · have hmut := write_bytes_mut hwb b h3
                        rw [hslice] at hmut
                        simp only [Nat.add_zero] at hmut
                        subst hmut
                        exact hfresh
                    · have hdb := gdisk b h2
                      exact hdown₁ b hdb
                  · rw [gq]
                    show fs₁.freeQueue ++ _ = _
                    rw [hQ₁]
                    simp only [objWriteOldPtrs, if_pos hhit]
                    rw [List.append_assoc]
                  · intro g hg
                    rcases List.mem_cons.mp hg with rfl | hg
                    · right
                      show usedAtL newp.location fs.alloc.extents = false
                      exact hfresh
                    · rcases gfrag g hg with ⟨f₂, hf₂, hgp⟩ | hfree
                      · exact Or.inl ⟨f₂, List.mem_cons_of_mem f hf₂, hgp⟩
                      · exact Or.inr (hdown₁ _ hfree)
              · exact absurd h (by simp)
              · exact absurd h (by simp)
            · exact absurd h (by simp)
            · exact absurd h (by simp)
          · exact absurd h (by simp)
          · exact absurd h (by simp)
    · rename_i hnohit
      split at h
      rename_i r fs₃ rest₃ hrec
      simp only [Prod.mk.injEq] at h
      obtain ⟨h1, h2, h3⟩ := h
      subst h1
      subst h2
      subst h3
      obtain ⟨gwf, gnaf, gsz, gmono, gdisk, gq, gfrag⟩ :=
        ih hwf hnaf hfT hrec
      refine ⟨gwf, gnaf, gsz, gmono, gdisk, ?_, ?_⟩
      · rw [gq]
        simp only [objWriteOldPtrs, if_neg hnohit, List.nil_append]
      · intro g hg
        rcases List.mem_cons.mp hg with hgf | hg
        · exact Or.inl ⟨f, List.mem_cons_self f rest, by rw [hgf]⟩
        · rcases gfrag g hg with ⟨f₂, hf₂, hgp⟩ | hfree
          · exact Or.inl ⟨f₂, List.mem_cons_of_mem f hf₂, hgp⟩
          · exact Or.inr hfree

/-- C3 counterexample: a fragment longer than one block — exactly what
`create_object(id, 5000)` builds: one 5000-byte fragment behind a one-block
pointer. Writing one byte at offset 4096 succeeds, but the sub-block write
path targets device block `loc + slice_start / BLOCK_SIZE`, one block past
the freshly allocated one: device block 2, which is allocated and holds
published data `[7]`, is mutated in place to `[42]` — no reallocation, no
free-queue entry for it — violating the claimed copy-on-write property. -/
theorem C3_cow_counterexample :
    ((Object.mk [⟨5000, 0, AMPointer.new 0 1 0 0⟩]).write
        ⟨⟨4, [(0, ⟨1, true⟩), (1, ⟨1, false⟩), (2, ⟨1, true⟩), (3, ⟨1, true⟩)]⟩,
         [], fun i => if i = 2 then [7] else []⟩ 4096 [42]).1 = .ok 1 ∧
    usedAtL 2 [(0, ⟨1, true⟩), (1, ⟨1, false⟩), (2, ⟨1, true⟩), (3, ⟨1, true⟩)]
      = true ∧
    ((Object.mk [⟨5000, 0, AMPointer.new 0 1 0 0⟩]).write
        ⟨⟨4, [(0, ⟨1, true⟩), (1, ⟨1, false⟩), (2, ⟨1, true⟩), (3, ⟨1, true⟩)]⟩,
         [], fun i => if i = 2 then [7] else []⟩ 4096 [42]).2.1.disk 2 = [42] ∧
    ([42] : List Nat) ≠ [7] := by
  exact ⟨rfl, by decide, rfl, by decide⟩

/-- C3 (amended): copy-on-write holds for objects all of whose fragments fit
in one block (the shape `alloc_bytes` produces): on a successful
`Object::write`, every device block whose contents change was free
beforehand — no allocated (published) block is mutated in place — the new
entries pushed onto the current transaction's free queue are exactly the
old pointers of the rewritten fragments (`objWriteOldPtrs`: those hit by
the loop's `start < pos + f.size` test), in order — in particular every
rewritten fragment's old pointer is enqueued and nothing else is — and
every rewritten fragment points at a previously-free block. For fragments
longer than one block the sub-block write path escapes its one-block
allocation (see the 5000-byte counterexample), so the spec's unconditional
claim fails. -/
theorem C3_cow_amended :
    ∀ (o : Object) (fs : FS) (start : Nat) (data : List Nat) (n : Nat)
      (fs' : FS) (o' : Object),
    fs.alloc.wf = true → naf fs.alloc.extents →
    (∀ f ∈ o.frags, f.size ≤ BLOCK_SIZE ∧ f.pointer.len = 1) →
    Object.write o fs start data = (.ok n, fs', o') →
    (∀ b, fs'.disk b ≠ fs.disk b → usedAtL b fs.alloc.extents = false) ∧
    fs'.freeQueue = fs.freeQueue ++ objWriteOldPtrs start o.frags 0 ∧
    (∀ q ∈ objWriteOldPtrs start o.frags 0, ∃ f ∈ o.frags, q = f.pointer) ∧
    (∀ g ∈ o'.frags, (∃ f ∈ o.frags, g.pointer = f.pointer) ∨
      usedAtL g.pointer.location fs.alloc.extents = false) ∧
    (Object.write o fs start data).2.1.alloc.wf = true ∧
    naf (Object.write o fs start data).2.1.alloc.extents := by
  intro o fs start data n fs' o' hwf hnaf hfr h
  unfold Object.write at h ⊢
  split at h
  rename_i r fs₁ frags₁ hgo
  simp only [Prod.mk.injEq] at h
  obtain ⟨h1, h2, h3⟩ := h
  subst h1
  subst h2
  subst h3
  obtain ⟨gwf, gnaf, _, _, gdisk, gq, gfrag⟩ := objWriteGo_cow hwf hnaf hfr hgo
  exact ⟨gdisk, gq, fun q hq => objWriteOldPtrs_mem hq, gfrag, gwf, gnaf⟩

/-- Witness for `C3_cow_amended`: a one-byte write into an 8-byte,
single-fragment object. The single fragment is rewritten, so exactly its
old pointer lands on the (initially empty) free queue. -/
theorem C3_cow_amended_witness :
    (⟨⟨4, [(0, ⟨1, true⟩), (1, ⟨3, false⟩)]⟩, [], fun _ => []⟩ : FS).alloc.wf
      = true ∧
    ((Object.mk [⟨8, 0, AMPointer.new 0 1 0 0⟩]).write
      ⟨⟨4, [(0, ⟨1, true⟩), (1, ⟨3, false⟩)]⟩, [], fun _ => []⟩
      0 [9]).2.1.freeQueue = [AMPointer.new 0 1 0 0] ∧
    ((Object.mk [⟨8, 0, AMPointer.new 0 1 0 0⟩]).write
      ⟨⟨4, [(0, ⟨1, true⟩), (1, ⟨3, false⟩)]⟩, [], fun _ => []⟩
      0 [9]).2.1.alloc.wf = true := by
  have happ := C3_cow_amended (Object.mk [⟨8, 0, AMPointer.new 0 1 0 0⟩])
    ⟨⟨4, [(0, ⟨1, true⟩), (1, ⟨3, false⟩)]⟩, [], fun _ => []⟩ 0 [9] 1
    ((Object.mk [⟨8, 0, AMPointer.new 0 1 0 0⟩]).write
      ⟨⟨4, [(0, ⟨1, true⟩), (1, ⟨3, false⟩)]⟩, [], fun _ => []⟩ 0 [9]).2.1
    ((Object.mk [⟨8, 0, AMPointer.new 0 1 0 0⟩]).write
      ⟨⟨4, [(0, ⟨1, true⟩), (1, ⟨3, false⟩)]⟩, [], fun _ => []⟩ 0 [9]).2.2
    (by decide) (naf_iff.mpr (by decide)) (by decide) rfl
  exact ⟨by decide, happ.2.1.trans rfl, happ.2.2.2.2.1⟩

/-- The block-pointer allocation loop of the LLG writer: `n` fresh,
pairwise-distinct, non-null one-block pointers. -/
theorem allocPtrs_spec {n : Nat} : ∀ {a : AllocatorObj} {ptrs : List AMPointer}
    {a₁ : AllocatorObj},
    a.wf = true → naf a.extents →
    allocPtrs n a = (.ok ptrs, a₁) →
    ptrs.length = n ∧ a₁.wf = true ∧ naf a₁.extents ∧
    (∀ b, usedAtL b a.extents = true → usedAtL b a₁.extents = true) ∧
    (∀ p ∈ ptrs, p.len = 1 ∧ p.is_null = false ∧
      usedAtL p.location a.extents = false ∧
      usedAtL p.location a₁.extents = true) ∧
    (ptrs.map AMPointer.location).Nodup := by
  induction n with
  | zero =>
    intro a ptrs a₁ hwf hnaf h
    have h' : ((.ok [] : MRes (List AMPointer)), a) = (.ok ptrs, a₁) := h
    simp only [Prod.mk.injEq, MRes.ok.injEq] at h'
    obtain ⟨h1, h2⟩ := h'
    subst h1
    subst h2
    exact ⟨rfl, hwf, hnaf, fun b hb => hb, by simp, by simp⟩
  | succ m ih =>
    intro a ptrs a₁ hwf hnaf h
    unfold allocPtrs at h
    split at h
    · rename_i p a₂ hdg
      unfold DiskGroup.alloc_blocks at hdg
      split at hdg
      · rename_i w a₃ halloc
        have hq : ((.ok (AMPointer.new w 1 0 0) : MRes AMPointer), a₃) =
            (.ok p, a₂) := hdg
        simp only [Prod.mk.injEq, MRes.ok.injEq] at hq
        obtain ⟨hq1, hq2⟩ := hq
        subst hq1
        subst hq2
        obtain ⟨hsz₂, hwf₂, hnaf₂, hA, hFresh, hE, hF, _⟩ :=
          alloc_ok_spec hwf hnaf halloc
        split at h
        · rename_i ps a₄ hrec
          have h' : ((.ok (AMPointer.new w 1 0 0 :: ps) :
              MRes (List AMPointer)), a₄) = (.ok ptrs, a₁) := h
          simp only [Prod.mk.injEq, MRes.ok.injEq] at h'
          obtain ⟨h1, h2⟩ := h'
          subst h1
          subst h2
          obtain ⟨glen, gwf, gnaf, gmono, gmem, gnd⟩ := ih hwf₂ hnaf₂ hrec
          have hvA : usedAtL w a.extents = false :=
            hFresh w (Nat.le_refl w) (by omega)
          have hvA₂ : usedAtL w a₃.extents = true := by
            rw [hA w]
            simp
          refine ⟨by simp [glen], gwf, gnaf, ?_, ?_, ?_⟩
          · intro b hb
            apply gmono
            rw [hA b, hb]
            simp
          · intro q hq
            rcases List.mem_cons.mp hq with rfl | hq
            · exact ⟨rfl, rfl, hvA, gmono w hvA₂⟩
            · obtain ⟨gl, gn, gfa, gua⟩ := gmem q hq
              refine ⟨gl, gn, ?_, gua⟩
              rw [hA q.location] at gfa
              exact (Bool.or_eq_false_iff.mp gfa).1
          · simp only [List.map_cons, List.nodup_cons]
            refine ⟨?_, gnd⟩
            intro hmem
            obtain ⟨q, hq, hql⟩ := List.mem_map.mp hmem
            obtain ⟨_, _, gfa, _⟩ := gmem q hq
            have hql' : q.location = w := hql
            rw [hql'] at gfa
            rw [hA w] at gfa
            simp at gfa
        · exact absurd h (by simp)
        · exact absurd h (by simp)
      · exact absurd hdg (by simp)
      · exact absurd hdg (by simp)
    · exact absurd h (by simp)
    · exact absurd h (by simp)

/-- Pass 1 leaves blocks outside its pointer list untouched. -/
theorem pass1_frame {T : Type} {k : Nat} :
    ∀ {ptrs : List AMPointer} {v : List T} {d : Nat → LLGBlock T} {l : Nat},
    (∀ x ∈ ptrs, x.location ≠ l) → pass1 k ptrs v d l = d l := by
  intro ptrs
  induction ptrs with
  | nil =>
    intro v d l _
    rfl
  | cons p rest ih =>
    intro v d l hx
    cases rest with
    | nil =>
      show setD d p.location _ l = d l
      unfold setD
      rw [if_neg (fun hc => hx p (List.mem_cons_self p []) hc.symm)]
    | cons q rest₂ =>
      show pass1 k (q :: rest₂) (v.drop k)
        (setD d p.location ⟨q, (v.take k).length, v.take k⟩) l = d l
      rw [ih (fun x hxm => hx x (List.mem_cons_of_mem p hxm))]
      unfold setD
      rw [if_neg (fun hc => hx p (List.mem_cons_self p (q :: rest₂)) hc.symm)]

/-- Pass 2 leaves blocks outside its pointer list untouched. -/
theorem pass2_frame {T : Type} {chkf : LLGBlock T → Nat} :
    ∀ {ptrs : List AMPointer} {d : Nat → LLGBlock T} {l : Nat},
    (∀ x ∈ ptrs, x.location ≠ l) → pass2 chkf ptrs d l = d l := by
  intro ptrs
  induction ptrs with
  | nil =>
    intro d l _
    rfl
  | cons p rest ih =>
    intro d l hx
    cases rest with
    | nil => rfl
    | cons q rest₂ =>
      show setD (pass2 chkf (q :: rest₂) d) p.location
        (withNext ((pass2 chkf (q :: rest₂) d) p.location)
          (withChecksum q (chkf ((pass2 chkf (q :: rest₂) d) q.location)))) l
        = d l
      unfold setD
      rw [if_neg (fun hc => hx p (List.mem_cons_self p (q :: rest₂)) hc.symm)]
      exact ih (fun x hxm => hx x (List.mem_cons_of_mem p hxm))

/-- Pass 2 rewrites only headers' `next` fields: entry counts survive. -/
theorem pass2_count {T : Type} {chkf : LLGBlock T → Nat} :
    ∀ {ptrs : List AMPointer} {d : Nat → LLGBlock T} {l : Nat},
    ((pass2 chkf ptrs d) l).count = (d l).count := by
  intro ptrs
  induction ptrs with
  | nil =>
    intro d l
    rfl
  | cons p rest ih =>
    intro d l
    cases rest with
    | nil => rfl
    | cons q rest₂ =>
      show ((setD (pass2 chkf (q :: rest₂) d) p.location
        (withNext ((pass2 chkf (q :: rest₂) d) p.location)
          (withChecksum q (chkf ((pass2 chkf (q :: rest₂) d) q.location))))) l).count
        = (d l).count
      unfold setD
      by_cases hl : l = p.location
      · rw [if_pos hl]
        show ((pass2 chkf (q :: rest₂) d) p.location).count = (d l).count
        rw [hl]
        exact ih
      · rw [if_neg hl]
        exact ih

/-- Pass 1 writes blocks of at most `k` entries (and leaves other counts). -/
theorem pass1_count {T : Type} {k : Nat} :
    ∀ {ptrs : List AMPointer} {v : List T} {d : Nat → LLGBlock T} {l : Nat},
    ((pass1 k ptrs v d) l).count ≤ k ∨
      ((pass1 k ptrs v d) l).count = (d l).count := by
  intro ptrs
  induction ptrs with
  | nil =>
    intro v d l
    exact Or.inr rfl
  | cons p rest ih =>
    intro v d l
    cases rest with
    | nil =>
      show ((setD d p.location
          ⟨AMPointer.null, (v.take k).length, v.take k⟩) l).count ≤ k ∨
        ((setD d p.location
          ⟨AMPointer.null, (v.take k).length, v.take k⟩) l).count = (d l).count
      unfold setD
      by_cases hl : l = p.location
      · rw [if_pos hl]
        left
        show (v.take k).length ≤ k
        simp [List.length_take]
      · rw [if_neg hl]
        exact Or.inr rfl
    | cons q rest₂ =>
      show ((pass1 k (q :: rest₂) (v.drop k)
          (setD d p.location ⟨q, (v.take k).length, v.take k⟩)) l).count ≤ k ∨
        ((pass1 k (q :: rest₂) (v.drop k)
          (setD d p.location ⟨q, (v.take k).length, v.take k⟩)) l).count
          = (d l).count
      rcases @ih (v.drop k)
          (setD d p.location ⟨q, (v.take k).length, v.take k⟩) l with hle | heq
      · exact Or.inl hle
      · rw [heq]
        unfold setD
        by_cases hl : l = p.location
        · rw [if_pos hl]
          left
          show (v.take k).length ≤ k
          simp [List.length_take]
        · rw [if_neg hl]
          exact Or.inr rfl

/-- One `read` iteration on a valid head: non-null, length 1, checksum
matching the pointed-to block. -/
theorem readLLG_step_ok {T : Type} {chkf : LLGBlock T → Nat} {fuel : Nat}
    {p : AMPointer} {d : Nat → LLGBlock T} {blk : LLGBlock T} {rest : List T}
    (hn : p.is_null = false) (hl : p.len = 1)
    (hb : d p.location = blk) (hc : chkf blk = p.checksum)
    (hrec : readLLG chkf fuel blk.next d = .ok rest) :
    readLLG chkf (fuel + 1) p d = .ok (blk.entries.take blk.count ++ rest) := by
  unfold readLLG
  rw [hb, if_neg (by simp [hn]), if_neg (fun hcc => hcc hl), if_pos hc, hrec]

/-- `read` stops at a null pointer. -/
theorem readLLG_null {T : Type} {chkf : LLGBlock T → Nat} {fuel : Nat}
    {p : AMPointer} {d : Nat → LLGBlock T} (hn : p.is_null = true) :
    readLLG chkf (fuel + 1) p d = .ok [] := by
  unfold readLLG
  rw [if_pos hn]

theorem setD_same {α : Type} {d : Nat → α} {i : Nat} {b : α} :
    setD d i b i = b := by
  unfold setD
  rw [if_pos rfl]

theorem setD_other {α : Type} {d : Nat → α} {i j : Nat} {b : α}
    (h : ¬ j = i) : setD d i b j = d j := by
  unfold setD
  rw [if_neg h]

/-- The written chain reads back: for a pointer chain with distinct
locations, reading from the checksum-updated head of the two-pass image
returns exactly the written values. -/
theorem chain_spec {T : Type} {chkf : LLGBlock T → Nat} {k : Nat} :
    ∀ (rest : List AMPointer) (p : AMPointer) (v : List T)
      (d d_ext : Nat → LLGBlock T) (fuel : Nat),
    (∀ q ∈ p :: rest, q.len = 1 ∧ q.is_null = false) →
    ((p :: rest).map AMPointer.location).Nodup →
    v.length ≤ (p :: rest).length * k →
    (∀ l, l ∈ (p :: rest).map AMPointer.location →
      d_ext l = pass2 chkf (p :: rest) (pass1 k (p :: rest) v d) l) →
    (p :: rest).length + 1 ≤ fuel →
    readLLG chkf fuel (withChecksum p (chkf (d_ext p.location))) d_ext
      = .ok v := by
  intro rest
  induction rest with
  | nil =>
    intro p v d d_ext fuel hq hnd hlen hagree hfuel
    obtain ⟨f, rfl⟩ : ∃ f, fuel = f + 1 + 1 := ⟨fuel - 2, by
      simp only [List.length_cons, List.length_nil] at hfuel
      omega⟩
    have hvk : v.length ≤ k := by
      have h1 : (1 : Nat) * k = k := Nat.one_mul k
      simp only [List.length_cons, List.length_nil] at hlen
      omega
    have hblk : d_ext p.location
        = ⟨AMPointer.null, (v.take k).length, v.take k⟩ := by
      rw [hagree p.location (by simp)]
      show setD d p.location ⟨AMPointer.null, (v.take k).length, v.take k⟩
        p.location = _
      rw [setD_same]
    have hn : (withChecksum p (chkf (d_ext p.location))).is_null = false :=
      (hq p (List.mem_cons_self p [])).2
    have hl : (withChecksum p (chkf (d_ext p.location))).len = 1 :=
      (hq p (List.mem_cons_self p [])).1
    have hb : d_ext (withChecksum p (chkf (d_ext p.location))).location
        = (⟨AMPointer.null, (v.take k).length, v.take k⟩ : LLGBlock T) := by
      show d_ext p.location = _
      exact hblk
    have hc : chkf (⟨AMPointer.null, (v.take k).length, v.take k⟩ : LLGBlock T)
        = (withChecksum p (chkf (d_ext p.location))).checksum := by
      show _ = chkf (d_ext p.location)
      rw [hblk]
    have hrec : readLLG chkf (f + 1)
        (⟨AMPointer.null, (v.take k).length, v.take k⟩ : LLGBlock T).next d_ext
        = .ok ([] : List T) := readLLG_null rfl
    rw [readLLG_step_ok hn hl hb hc hrec]
    show MRes.ok ((v.take k).take (v.take k).length ++ []) = .ok v
    rw [List.take_length, List.append_nil, List.take_of_length_le hvk]
  | cons q rest₂ ih =>
    intro p v d d_ext fuel hq hnd hlen hagree hfuel
    obtain ⟨f, rfl⟩ : ∃ f, fuel = f + 1 := ⟨fuel - 1, by omega⟩
    have hndc := hnd
    simp only [List.map_cons, List.nodup_cons] at hndc
    obtain ⟨hpmem, hndT⟩ := hndc
    have hqne : ∀ x ∈ q :: rest₂, x.location ≠ p.location := by
      intro x hx hc
      apply hpmem
      rcases List.mem_cons.mp hx with rfl | hx2
      · rw [← hc]
        exact List.mem_cons_self _ _
      · exact List.mem_cons_of_mem _ (List.mem_map.mpr ⟨x, hx2, hc⟩)
    have hD'p : pass2 chkf (q :: rest₂)
        (pass1 k (q :: rest₂) (v.drop k)
          (setD d p.location ⟨q, (v.take k).length, v.take k⟩)) p.location
        = pass1 k (q :: rest₂) (v.drop k)
          (setD d p.location ⟨q, (v.take k).length, v.take k⟩) p.location :=
      pass2_frame hqne
    have hP₁p : pass1 k (q :: rest₂) (v.drop k)
        (setD d p.location ⟨q, (v.take k).length, v.take k⟩) p.location
        = ⟨q, (v.take k).length, v.take k⟩ := by
      rw [pass1_frame hqne, setD_same]
    have hDp : d_ext p.location = withNext ⟨q, (v.take k).length, v.take k⟩
        (withChecksum q (chkf (pass2 chkf (q :: rest₂)
          (pass1 k (q :: rest₂) (v.drop k)
            (setD d p.location ⟨q, (v.take k).length, v.take k⟩)) q.location))) := by
      rw [hagree p.location (by simp)]
      show setD (pass2 chkf (q :: rest₂) (pass1 k (q :: rest₂) (v.drop k)
          (setD d p.location ⟨q, (v.take k).length, v.take k⟩))) p.location
        (withNext (pass2 chkf (q :: rest₂) (pass1 k (q :: rest₂) (v.drop k)
            (setD d p.location ⟨q, (v.take k).length, v.take k⟩)) p.location)
          (withChecksum q (chkf (pass2 chkf (q :: rest₂)
            (pass1 k (q :: rest₂) (v.drop k)
              (setD d p.location ⟨q, (v.take k).length, v.take k⟩)) q.location))))
        p.location = _
      rw [setD_same, hD'p, hP₁p]
    have hagree' : ∀ l, l ∈ (q :: rest₂).map AMPointer.location →
        d_ext l = pass2 chkf (q :: rest₂) (pass1 k (q :: rest₂) (v.drop k)
          (setD d p.location ⟨q, (v.take k).length, v.take k⟩)) l := by
      intro l hlmem
      have hlp : ¬ l = p.location := by
        obtain ⟨x, hx, hxl⟩ := List.mem_map.mp hlmem
        intro hc
        exact hqne x hx (by rw [hxl, hc])
      rw [hagree l (by
        rw [List.map_cons]
        exact List.mem_cons_of_mem _ hlmem)]
      show setD (pass2 chkf (q :: rest₂) (pass1 k (q :: rest₂) (v.drop k)
          (setD d p.location ⟨q, (v.take k).length, v.take k⟩))) p.location
        (withNext (pass2 chkf (q :: rest₂) (pass1 k (q :: rest₂) (v.drop k)
            (setD d p.location ⟨q, (v.take k).length, v.take k⟩)) p.location)
          (withChecksum q (chkf (pass2 chkf (q :: rest₂)
            (pass1 k (q :: rest₂) (v.drop k)
              (setD d p.location ⟨q, (v.take k).length, v.take k⟩)) q.location))))
        l = _
      rw [setD_other hlp]
    have hlenT : (v.drop k).length ≤ (q :: rest₂).length * k := by
      have hlen' : v.length ≤ (rest₂.length + 1 + 1) * k := by
        simpa using hlen
      have h2 : (rest₂.length + 1 + 1) * k = (rest₂.length + 1) * k + k := by
        ring
      have h3 : v.length - k ≤ (rest₂.length + 1) * k := by omega
      simp only [List.length_drop, List.length_cons]
      exact h3
    have hfuelT : (q :: rest₂).length + 1 ≤ f := by
      simp only [List.length_cons] at hfuel ⊢
      omega
    have hndT' : ((q :: rest₂).map AMPointer.location).Nodup := by
      simp only [List.map_cons, List.nodup_cons]
      exact hndT
    have ihres := ih q (v.drop k)
      (setD d p.location ⟨q, (v.take k).length, v.take k⟩) d_ext f
      (fun x hx => hq x (List.mem_cons_of_mem p hx)) hndT' hlenT hagree' hfuelT
    have hn : (withChecksum p (chkf (d_ext p.location))).is_null = false :=
      (hq p (List.mem_cons_self p (q :: rest₂))).2
    have hl : (withChecksum p (chkf (d_ext p.location))).len = 1 :=
      (hq p (List.mem_cons_self p (q :: rest₂))).1
    have hb : d_ext (withChecksum p (chkf (d_ext p.location))).location
        = withNext ⟨q, (v.take k).length, v.take k⟩
          (withChecksum q (chkf (pass2 chkf (q :: rest₂)
            (pass1 k (q :: rest₂) (v.drop k)
              (setD d p.location ⟨q, (v.take k).length, v.take k⟩)) q.location))) := by
      show d_ext p.location = _
      exact hDp
    have hc : chkf (withNext ⟨q, (v.take k).length, v.take k⟩
          (withChecksum q (chkf (pass2 chkf (q :: rest₂)
            (pass1 k (q :: rest₂) (v.drop k)
              (setD d p.location ⟨q, (v.take k).length, v.take k⟩)) q.location))))
        = (withChecksum p (chkf (d_ext p.location))).checksum := by
      show _ = chkf (d_ext p.location)
      rw [hDp]
    have hrec : readLLG chkf f (withNext ⟨q, (v.take k).length, v.take k⟩
          (withChecksum q (chkf (pass2 chkf (q :: rest₂)
            (pass1 k (q :: rest₂) (v.drop k)
              (setD d p.location ⟨q, (v.take k).length, v.take k⟩)) q.location)))).next
        d_ext = .ok (v.drop k) := by
      show readLLG chkf f (withChecksum q (chkf (pass2 chkf (q :: rest₂)
        (pass1 k (q :: rest₂) (v.drop k)
          (setD d p.location ⟨q, (v.take k).length, v.take k⟩)) q.location)))
        d_ext = _
      rw [show pass2 chkf (q :: rest₂) (pass1 k (q :: rest₂) (v.drop k)
          (setD d p.location ⟨q, (v.take k).length, v.take k⟩)) q.location
          = d_ext q.location from (hagree' q.location (by simp)).symm]
      exact ihres
    rw [readLLG_step_ok hn hl hb hc hrec]
    show MRes.ok ((v.take k).take (v.take k).length ++ v.drop k) = .ok v
    rw [List.take_length, List.take_append_drop]

/-- C5: linked-list-of-blocks round-trip. For every record vector `v`
(empty included) and every checksum function over block contents (the code
uses CRC32 of the 4096-byte buffer), if `write` succeeds then reading back
from the returned head pointer yields exactly `v`; the head pointer's
checksum is valid against the final head block; and every block either
carries at most `ent_each = k` entries or kept its previous entry count. -/
theorem C5_llg_roundtrip :
    ∀ {T : Type} (chkf : LLGBlock T → Nat) (k : Nat) (v : List T)
      (a : AllocatorObj) (d : Nat → LLGBlock T) (p : AMPointer)
      (a' : AllocatorObj) (d' : Nat → LLGBlock T) (fuel : Nat),
    0 < k → a.wf = true → naf a.extents →
    writeLLG chkf k v a d = (.ok p, a', d') →
    (if v.length = 0 then 1 else (v.length + (k - 1)) / k) + 2 ≤ fuel →
    readLLG chkf fuel p d' = .ok v ∧
    chkf (d' p.location) = p.checksum ∧
    (∀ l, (d' l).count ≤ k ∨ (d' l).count = (d l).count) := by
  intro T chkf k v a d p a' d' fuel hk hwf hnaf h hfuel
  unfold writeLLG at h
  split at h
  · exact absurd h (by simp)
  · rename_i p₀ ptl a₁ hap
    obtain ⟨glen, gwf, gnaf, gmono, gmem, gnd⟩ := allocPtrs_spec hwf hnaf hap
    · simp only [Prod.mk.injEq, MRes.ok.injEq] at h
      obtain ⟨h1, h2, h3⟩ := h
      subst h1
      subst h2
      subst h3
      have hlen : v.length ≤ (p₀ :: ptl).length * k := by
        by_cases hv : v.length = 0
        · omega
        · rw [if_neg hv] at glen
          have hdm := Nat.div_add_mod (v.length + (k - 1)) k
          have hmlt : (v.length + (k - 1)) % k < k := Nat.mod_lt _ hk
          have hglen : (p₀ :: ptl).length * k
              = ((v.length + (k - 1)) / k) * k := by rw [glen]
          have hcomm : ((v.length + (k - 1)) / k) * k
              = k * ((v.length + (k - 1)) / k) := Nat.mul_comm _ _
          omega
      have hfuel' : (p₀ :: ptl).length + 1 ≤ fuel := by
        rw [glen]
        omega
      have hread := chain_spec ptl p₀ v d
        (pass2 chkf (p₀ :: ptl) (pass1 k (p₀ :: ptl) v d)) fuel
        (fun q hq => ⟨(gmem q hq).1, (gmem q hq).2.1⟩) gnd hlen
        (fun l _ => rfl) hfuel'
      refine ⟨hread, rfl, ?_⟩
      intro l
      have hc2 : ((pass2 chkf (p₀ :: ptl) (pass1 k (p₀ :: ptl) v d)) l).count
          = ((pass1 k (p₀ :: ptl) v d) l).count := pass2_count
      rw [hc2]
      exact pass1_count
  · exact absurd h (by simp)
  · exact absurd h (by simp)

/-- Witness for `C5_llg_roundtrip`: three `Nat` records, two per block. -/
theorem C5_llg_roundtrip_witness :
    (0 : Nat) < 2 ∧ (AllocatorObj.new 4).wf = true ∧
    readLLG (fun b => b.next.location + b.count * 10 + b.entries.sum) 4
      (⟨0, 32, 0, 0, 1, 255⟩ : AMPointer)
      ((writeLLG (fun b => b.next.location + b.count * 10 + b.entries.sum) 2
        ([5, 6, 7] : List Nat) (AllocatorObj.new 4)
        (fun _ => ⟨AMPointer.null, 0, []⟩)).2.2) = .ok [5, 6, 7] :=
  ⟨by decide, by decide,
   (C5_llg_roundtrip (fun b => b.next.location + b.count * 10 + b.entries.sum) 2
     [5, 6, 7] (AllocatorObj.new 4) (fun _ => ⟨AMPointer.null, 0, []⟩)
     ⟨0, 32, 0, 0, 1, 255⟩
     ⟨4, [(0, ⟨1, true⟩), (1, ⟨1, true⟩), (2, ⟨2, false⟩)]⟩
     ((writeLLG (fun b => b.next.location + b.count * 10 + b.entries.sum) 2
       ([5, 6, 7] : List Nat) (AllocatorObj.new 4)
       (fun _ => ⟨AMPointer.null, 0, []⟩)).2.2) 4
     (by decide) (by decide) (naf_iff.mpr (by decide)) rfl (by decide)).1⟩

theorem testBit31_false {x : Nat} (h : x < 2 ^ 31) : x.testBit 31 = false := by
  have h0 : x / 2147483648 = 0 := Nat.div_eq_of_lt (by omega)
  rw [Nat.testBit_to_div_mod]
  simp [h0]

theorem crcBit_lt {c : Nat} (h : c < 2 ^ 32) : crcBit c < 2 ^ 32 := by
  unfold crcBit
  split
  · exact Nat.xor_lt_two_pow (by omega) (by norm_num)
  · omega

theorem crcBit_inj {c c' : Nat} (hc : c < 2 ^ 32) (hc' : c' < 2 ^ 32)
    (h : crcBit c = crcBit c') : c = c' := by
  unfold crcBit at h
  by_cases h1 : c % 2 = 1 <;> by_cases h2 : c' % 2 = 1
  · rw [if_pos h1, if_pos h2] at h
    have h3 : c / 2 = c' / 2 := by
      have h4 := congrArg (fun x => x ^^^ 0xEDB88320) h
      simpa [Nat.xor_assoc] using h4
    omega
  · rw [if_pos h1, if_neg h2] at h
    exfalso
    have hb31 : ((c / 2) ^^^ 0xEDB88320).testBit 31 = true := by
      rw [Nat.testBit_xor, testBit31_false (show c / 2 < 2 ^ 31 from by omega)]
      decide
    rw [h, testBit31_false (show c' / 2 < 2 ^ 31 from by omega)] at hb31
    exact Bool.noConfusion hb31
  · rw [if_neg h1, if_pos h2] at h
    exfalso
    have hb31 : ((c' / 2) ^^^ 0xEDB88320).testBit 31 = true := by
      rw [Nat.testBit_xor, testBit31_false (show c' / 2 < 2 ^ 31 from by omega)]
      decide
    rw [← h, testBit31_false (show c / 2 < 2 ^ 31 from by omega)] at hb31
    exact Bool.noConfusion hb31
  · rw [if_neg h1, if_neg h2] at h
    omega

theorem crcByte_lt {c b : Nat} (hc : c < 2 ^ 32) : crcByte c b < 2 ^ 32 := by
  unfold crcByte
  exact crcBit_lt (crcBit_lt (crcBit_lt (crcBit_lt (crcBit_lt (crcBit_lt
    (crcBit_lt (crcBit_lt (Nat.xor_lt_two_pow hc (by omega)))))))))

theorem crcByte_inj_acc {c c' b : Nat} (hc : c < 2 ^ 32) (hc' : c' < 2 ^ 32)
    (h : crcByte c b = crcByte c' b) : c = c' := by
  unfold crcByte at h
  have b0 : c ^^^ b % 256 < 2 ^ 32 := Nat.xor_lt_two_pow hc (by omega)
  have b0' : c' ^^^ b % 256 < 2 ^ 32 := Nat.xor_lt_two_pow hc' (by omega)
  have h7 := crcBit_inj
    (crcBit_lt (crcBit_lt (crcBit_lt (crcBit_lt (crcBit_lt (crcBit_lt
      (crcBit_lt b0)))))))
    (crcBit_lt (crcBit_lt (crcBit_lt (crcBit_lt (crcBit_lt (crcBit_lt
      (crcBit_lt b0')))))))
    h
  have h6 := crcBit_inj
    (crcBit_lt (crcBit_lt (crcBit_lt (crcBit_lt (crcBit_lt (crcBit_lt b0))))))
    (crcBit_lt (crcBit_lt (crcBit_lt (crcBit_lt (crcBit_lt (crcBit_lt b0'))))))
    h7
  have h5 := crcBit_inj
    (crcBit_lt (crcBit_lt (crcBit_lt (crcBit_lt (crcBit_lt b0)))))
    (crcBit_lt (crcBit_lt (crcBit_lt (crcBit_lt (crcBit_lt b0')))))
    h6
  have h4 := crcBit_inj
    (crcBit_lt (crcBit_lt (crcBit_lt (crcBit_lt b0))))
    (crcBit_lt (crcBit_lt (crcBit_lt (crcBit_lt b0'))))
    h5
  have h3 := crcBit_inj
    (crcBit_lt (crcBit_lt (crcBit_lt b0)))
    (crcBit_lt (crcBit_lt (crcBit_lt b0')))
    h4
  have h2 := crcBit_inj
    (crcBit_lt (crcBit_lt b0)) (crcBit_lt (crcBit_lt b0')) h3
  have h1 := crcBit_inj (crcBit_lt b0) (crcBit_lt b0') h2
  have h0 := crcBit_inj b0 b0' h1
  have h9 := congrArg (fun x => x ^^^ b % 256) h0
  simpa [Nat.xor_assoc] using h9

theorem crcByte_inj_byte {c b b' : Nat} (hc : c < 2 ^ 32)
    (hne : b % 256 ≠ b' % 256) : crcByte c b ≠ crcByte c b' := by
  intro h
  unfold crcByte at h
  have b0 : c ^^^ b % 256 < 2 ^ 32 := Nat.xor_lt_two_pow hc (by omega)
  have b0' : c ^^^ b' % 256 < 2 ^ 32 := Nat.xor_lt_two_pow hc (by omega)
  have h7 := crcBit_inj
    (crcBit_lt (crcBit_lt (crcBit_lt (crcBit_lt (crcBit_lt (crcBit_lt
      (crcBit_lt b0)))))))
    (crcBit_lt (crcBit_lt (crcBit_lt (crcBit_lt (crcBit_lt (crcBit_lt
      (crcBit_lt b0')))))))
    h
  have h6 := crcBit_inj
    (crcBit_lt (crcBit_lt (crcBit_lt (crcBit_lt (crcBit_lt (crcBit_lt b0))))))
    (crcBit_lt (crcBit_lt (crcBit_lt (crcBit_lt (crcBit_lt (crcBit_lt b0'))))))
    h7
  have h5 := crcBit_inj
    (crcBit_lt (crcBit_lt (crcBit_lt (crcBit_lt (crcBit_lt b0)))))
    (crcBit_lt (crcBit_lt (crcBit_lt (crcBit_lt (crcBit_lt b0')))))
    h6
  have h4 := crcBit_inj
    (crcBit_lt (crcBit_lt (crcBit_lt (crcBit_lt b0))))
    (crcBit_lt (crcBit_lt (crcBit_lt (crcBit_lt b0'))))
    h5
  have h3 := crcBit_inj
    (crcBit_lt (crcBit_lt (crcBit_lt b0)))
    (crcBit_lt (crcBit_lt (crcBit_lt b0')))
    h4
  have h2 := crcBit_inj
    (crcBit_lt (crcBit_lt b0)) (crcBit_lt (crcBit_lt b0')) h3
  have h1 := crcBit_inj (crcBit_lt b0) (crcBit_lt b0') h2
  have h0 := crcBit_inj b0 b0' h1
  have h9 := congrArg (fun x => c ^^^ x) h0
  simp only [← Nat.xor_assoc, Nat.xor_self, Nat.zero_xor] at h9
  exact hne h9

theorem updateL_lt : ∀ (l : List Nat) (acc : Nat), acc < 2 ^ 32 →
    l.foldl crcByte acc < 2 ^ 32 := by
  intro l
  induction l with
  | nil => intro acc h; exact h
  | cons b t ih =>
    intro acc h
    exact ih _ (crcByte_lt h)

theorem updateL_inj : ∀ (l : List Nat) {acc acc' : Nat}, acc < 2 ^ 32 →
    acc' < 2 ^ 32 → acc ≠ acc' →
    l.foldl crcByte acc ≠ l.foldl crcByte acc' := by
  intro l
  induction l with
  | nil => intro acc acc' _ _ hne; exact hne
  | cons b t ih =>
    intro acc acc' ha ha' hne
    exact ih (crcByte_lt ha) (crcByte_lt ha')
      (fun he => hne (crcByte_inj_acc ha ha' he))

/-- CRC32 detects every single corrupted byte: two buffers that differ in
exactly one byte (mod 256) have different CRC32 checksums. -/
theorem crc32_single_byte_ne {pre suf : List Nat} {b b' : Nat}
    (hne : b % 256 ≠ b' % 256) :
    crc32 (pre ++ b :: suf) ≠ crc32 (pre ++ b' :: suf) := by
  unfold crc32
  intro h
  have h2 : (pre ++ b :: suf).foldl crcByte 0xFFFFFFFF
      = (pre ++ b' :: suf).foldl crcByte 0xFFFFFFFF := by
    have h3 := congrArg (fun x => x ^^^ 0xFFFFFFFF) h
    simpa [Nat.xor_assoc] using h3
  rw [List.foldl_append, List.foldl_append] at h2
  simp only [List.foldl_cons] at h2
  have hA : pre.foldl crcByte 0xFFFFFFFF < 2 ^ 32 :=
    updateL_lt pre _ (by norm_num)
  exact updateL_inj suf (crcByte_lt hA) (crcByte_lt hA)
    (crcByte_inj_byte hA hne) h2

/-- C8 counterexample: on the all-zero single-disk image (the
`generate_0000` test image) every superblock copy fails `Superblock::read`
with `Signature`, but the mount path's `load_superblocks` swallows the
per-copy error kind and reports `NoSuperblock` — mount does not return
`Signature`. -/
theorem C8_mount_counterexample :
    Superblock.read_bytes (List.replicate 4096 0) = .err .Signature ∧
    loadSuperblocksSingle (fun _ => List.replicate 4096 0)
      ((Disk.get_header_locs 1000).map AMPointer.location) =
      .err .NoSuperblock ∧
    (.err .NoSuperblock : MRes Unit) ≠ .err .Signature := by
  exact ⟨by decide, by decide, by decide⟩

/-- C8 (amended): `Superblock::read` itself classifies corruption exactly as
the spec says — bad signature ↦ `Signature`, stored checksum differing from
the CRC32 of the checksum-zeroed block ↦ `Checksum`, zero devid ↦ `DiskID`,
in that order — and CRC32 indeed detects every single corrupted byte; but
mount surfaces `NoSuperblock` whenever all copies fail, not the per-copy
error kind. -/
theorem C8_read_classification_amended :
    (∀ blk : List Nat, blk.take 8 ≠ SIGNATURE →
      Superblock.read_bytes blk = .err .Signature) ∧
    (∀ blk : List Nat, blk.take 8 = SIGNATURE →
      crc32 (sbZeroChecksum blk) ≠ sbChecksumField blk →
      Superblock.read_bytes blk = .err .Checksum) ∧
    (∀ blk : List Nat, blk.take 8 = SIGNATURE →
      crc32 (sbZeroChecksum blk) = sbChecksumField blk → sbDevid blk = 0 →
      Superblock.read_bytes blk = .err .DiskID) ∧
    (∀ blk : List Nat, blk.take 8 = SIGNATURE →
      crc32 (sbZeroChecksum blk) = sbChecksumField blk → sbDevid blk ≠ 0 →
      Superblock.read_bytes blk = .ok ()) ∧
    (∀ (pre suf : List Nat) (b b' : Nat), b % 256 ≠ b' % 256 →
      crc32 (pre ++ b :: suf) ≠ crc32 (pre ++ b' :: suf)) ∧
    (∀ (disk : Nat → List Nat) (locs : List Nat),
      (∀ l ∈ locs, ∀ u : Unit, Superblock.read_bytes (disk l) ≠ .ok u) →
      loadSuperblocksSingle disk locs = .err .NoSuperblock) := by
  refine ⟨?_, ?_, ?_, ?_, ?_, ?_⟩
  · intro blk h
    unfold Superblock.read_bytes
    rw [if_pos h]
  · intro blk h1 h2
    unfold Superblock.read_bytes
    rw [if_neg (fun hc => hc h1), if_pos h2]
  · intro blk h1 h2 h3
    unfold Superblock.read_bytes
    rw [if_neg (fun hc => hc h1), if_neg (fun hc => hc h2), if_pos h3]
  · intro blk h1 h2 h3
    unfold Superblock.read_bytes
    rw [if_neg (fun hc => hc h1), if_neg (fun hc => hc h2), if_neg h3]
  · intro pre suf b b' hne
    exact crc32_single_byte_ne hne
  · intro disk locs hfail
    have hall : locs.all (fun l => match Superblock.read_bytes (disk l) with
        | .ok _ => false
        | _ => true) = true := by
      rw [List.all_eq_true]
      intro l hl
      cases hread : Superblock.read_bytes (disk l) with
      | ok u => exact absurd hread (hfail l hl u)
      | err e => simp [hread]
      | crash => simp [hread]
    unfold loadSuperblocksSingle
    rw [if_pos hall]

/-- Witness for `C8_read_classification_amended` on small inputs. -/
theorem C8_read_classification_amended_witness :
    ([9, 9, 9, 9, 9, 9, 9, 9] : List Nat).take 8 ≠ SIGNATURE ∧
    Superblock.read_bytes [9, 9, 9, 9, 9, 9, 9, 9] = .err .Signature ∧
    (0 : Nat) % 256 ≠ 1 % 256 ∧
    crc32 [0] ≠ crc32 [1] ∧
    loadSuperblocksSingle (fun _ => []) [0] = .err .NoSuperblock :=
  ⟨by decide,
   C8_read_classification_amended.1 [9, 9, 9, 9, 9, 9, 9, 9] (by decide),
   by decide,
   C8_read_classification_amended.2.2.2.2.1 [] [] 0 1 (by decide),
   C8_read_classification_amended.2.2.2.2.2 (fun _ => []) [0]
     (fun l hl u h => by
       have h2 : Superblock.read_bytes ([] : List Nat) = .ok u := h
       rw [show Superblock.read_bytes ([] : List Nat) = .err .Signature from
         by decide] at h2
       exact MRes.noConfusion h2)⟩

end Amfs
